import Mathlib

/-!
Verification of the dpdk-mpls-forwarder sources against their natural-language
specification.  The definitions below are shallow embeddings of the C sources:

* `src/mpls.h`      — the bit-packed MPLS shim-header codec
* `src/fwd_engine.c` — the frame transform (insert/strip/deduce), the burst
  helpers and the worker loop's control structure
* `src/cmdlargs.c`  — `put_in_order` and `parse_core_list`

Machine integers are modelled as `Nat` (bitwise operations truncate via the
32-bit constants exactly as the C `uint32_t` arithmetic does); C `int` values
that can be negative are modelled as `Int`.  Fallible operations return
`Option`/a result code, and functions that mutate their argument in place are
modelled as functions returning the updated value.
-/

/-! ## Header codec (src/mpls.h)

The constants and accessors are transcribed macro by macro.  `~x` on a
`uint32_t` is modelled by `not32`. -/

def MPLS_HDR_LEN : Nat := 4

def MPLS_HDR_LABEL_SHIFT : Nat := 12
def MPLS_HDR_LABEL_MASK : Nat := 0x000fffff
def MPLS_HDR_LABEL_BITS : Nat := MPLS_HDR_LABEL_MASK <<< MPLS_HDR_LABEL_SHIFT

def MPLS_HDR_TC_SHIFT : Nat := 9
def MPLS_HDR_TC_MASK : Nat := 0x07
def MPLS_HDR_TC_BITS : Nat := MPLS_HDR_TC_MASK <<< MPLS_HDR_TC_SHIFT

def MPLS_HDR_EOS_SHIFT : Nat := 8
def MPLS_HDR_EOS_MASK : Nat := 0x01
def MPLS_HDR_EOS_BIT : Nat := MPLS_HDR_EOS_MASK <<< MPLS_HDR_EOS_SHIFT

def MPLS_HDR_TTL_SHIFT : Nat := 0
def MPLS_HDR_TTL_MASK : Nat := 0xff
def MPLS_HDR_TTL_BITS : Nat := MPLS_HDR_TTL_MASK <<< MPLS_HDR_TTL_SHIFT

/-- Complement of a 32-bit value, as the C `~` on `uint32_t`. -/
def not32 (x : Nat) : Nat := 0xffffffff ^^^ x

def mpls_get_label (mheader : Nat) : Nat := mheader >>> MPLS_HDR_LABEL_SHIFT

def mpls_get_tc (mheader : Nat) : Nat :=
  (mheader >>> MPLS_HDR_TC_SHIFT) &&& MPLS_HDR_TC_MASK

def mpls_get_eos (mheader : Nat) : Nat :=
  (mheader >>> MPLS_HDR_EOS_SHIFT) &&& MPLS_HDR_EOS_MASK

def mpls_get_ttl (mheader : Nat) : Nat :=
  (mheader >>> MPLS_HDR_TTL_SHIFT) &&& MPLS_HDR_TTL_MASK

def mpls_set_label (mheader value : Nat) : Nat :=
  (mheader &&& not32 MPLS_HDR_LABEL_BITS) |||
    ((value &&& MPLS_HDR_LABEL_MASK) <<< MPLS_HDR_LABEL_SHIFT)

def mpls_set_tc (mheader tc : Nat) : Nat :=
  (mheader &&& not32 MPLS_HDR_TC_BITS) |||
    ((tc &&& MPLS_HDR_TC_MASK) <<< MPLS_HDR_TC_SHIFT)

def mpls_set_eos (mheader eos : Nat) : Nat :=
  (mheader &&& not32 MPLS_HDR_EOS_BIT) |||
    ((eos &&& MPLS_HDR_EOS_MASK) <<< MPLS_HDR_EOS_SHIFT)

def mpls_set_ttl (mheader ttl : Nat) : Nat :=
  (mheader &&& not32 MPLS_HDR_TTL_BITS) |||
    ((ttl &&& MPLS_HDR_TTL_MASK) <<< MPLS_HDR_TTL_SHIFT)

/-- The per-stream header built at the start of `fwd_worker_loop`
(src/fwd_engine.c lines 185-190): `mpls_hdr = 0`, then `mpls_set_label`,
`mpls_set_eos(…, 1)`, `mpls_set_ttl`. -/
def fwd_stream_hdr (mpls_label mpls_ttl : Nat) : Nat :=
  mpls_set_ttl (mpls_set_eos (mpls_set_label 0 mpls_label) 1) mpls_ttl

/-! ## Packet buffers (the external `rte_mbuf` abstraction)

A single directly-owned segment is modelled by the full underlying byte array
`buf` together with the data offset/length bookkeeping of `struct rte_mbuf`.
The fields that `mpls_header_insert`/`mpls_header_strip` consult are carried
explicitly; `direct` models `RTE_MBUF_DIRECT` (no indirect/external-buffer
flags set).  Bytes are `Nat`s; a well-formed buffer has all bytes < 256. -/

structure Mbuf where
  buf : List Nat
  data_off : Nat
  data_len : Nat
  pkt_len : Nat
  refcnt : Nat
  nb_segs : Nat
  direct : Bool
deriving Repr, DecidableEq

/-- `memmove(buf+dst, buf+src, n)` inside one byte array: positions
`dst ≤ i < dst+n` receive the byte previously at `src + (i-dst)`; all other
positions keep their byte (memmove copies as if through a temporary). -/
def copyBytes (buf : List Nat) (dst src n : Nat) : List Nat :=
  (List.range buf.length).map
    (fun i => if dst ≤ i ∧ i < dst + n then buf.getD (src + (i - dst)) 0
              else buf.getD i 0)

/-- Store a 16-bit value at byte offset `i` in network byte order, as
`x = rte_cpu_to_be_16(v)` does for a `uint16_t` field. -/
def writeBE16 (buf : List Nat) (i v : Nat) : List Nat :=
  (buf.set i (v / 256 % 256)).set (i + 1) (v % 256)

/-- Store a 32-bit value at byte offset `i` in network byte order, as
`*mpls = rte_cpu_to_be_32(v)` does. -/
def writeBE32 (buf : List Nat) (i v : Nat) : List Nat :=
  ((((buf.set i (v / 16777216 % 256)).set (i + 1) (v / 65536 % 256)).set
      (i + 2) (v / 256 % 256)).set (i + 3) (v % 256))

/-- Byte `i` of the mbuf's data region. -/
def byteAt (m : Mbuf) (i : Nat) : Nat := m.buf.getD (m.data_off + i) 0

/-- The ethertype field of the leading `struct rte_ether_hdr`, read as the
big-endian 16-bit value stored at data bytes 12 and 13 (this is the value the
byte-for-byte comparison with `rte_cpu_to_be_16(…)` inspects). -/
def readEtherTypeBE (m : Mbuf) : Nat := 256 * byteAt m 12 + byteAt m 13

def RTE_ETHER_MIN_LEN : Nat := 64
def RTE_ETHER_HDR_LEN : Nat := 14
def RTE_ETHER_TYPE_MPLS : Nat := 0x8847
def RTE_ETHER_TYPE_IPV4 : Nat := 0x0800
def RTE_ETHER_TYPE_IPV6 : Nat := 0x86DD

def EINVAL : Int := 22
def ENOSPC : Int := 28

def rte_pktmbuf_headroom (m : Mbuf) : Nat := m.data_off

/-- `rte_pktmbuf_prepend`: fails when the headroom is smaller than `len`,
otherwise grows the data region at the front. -/
def rte_pktmbuf_prepend (m : Mbuf) (len : Nat) : Option Mbuf :=
  if len > rte_pktmbuf_headroom m then none
  else some { m with data_off := m.data_off - len,
                     data_len := m.data_len + len,
                     pkt_len := m.pkt_len + len }

/-- `rte_pktmbuf_adj`: fails when the data region is shorter than `len`,
otherwise trims `len` bytes from the front. -/
def rte_pktmbuf_adj (m : Mbuf) (len : Nat) : Option Mbuf :=
  if len > m.data_len then none
  else some { m with data_off := m.data_off + len,
                     data_len := m.data_len - len,
                     pkt_len := m.pkt_len - len }

/-! ## Frame transform (src/fwd_engine.c) -/

/-- `mpls_header_insert` (src/fwd_engine.c lines 124-154).  Returns the
(possibly updated) buffer together with the C return code
(0, `-EINVAL` or `-ENOSPC`). -/
def mpls_header_insert (pktmb : Mbuf) (mpls_hdr : Nat) : Mbuf × Int :=
  if ¬ pktmb.direct ∨ pktmb.refcnt > 1 then (pktmb, -EINVAL)
  else if pktmb.data_len < RTE_ETHER_MIN_LEN then (pktmb, -ENOSPC)
  else
    match rte_pktmbuf_prepend pktmb MPLS_HDR_LEN with
    | none => (pktmb, -ENOSPC)
    | some m1 =>
      let b1 := copyBytes m1.buf m1.data_off (m1.data_off + MPLS_HDR_LEN)
                  RTE_ETHER_HDR_LEN
      let b2 := writeBE16 b1 (m1.data_off + 12) RTE_ETHER_TYPE_MPLS
      let b3 := writeBE32 b2 (m1.data_off + RTE_ETHER_HDR_LEN) mpls_hdr
      ({ m1 with buf := b3 }, 0)

/-- `mpls_header_strip` (src/fwd_engine.c lines 44-61). -/
def mpls_header_strip (pktmb : Mbuf) (ethertype : Nat) : Mbuf × Int :=
  if readEtherTypeBE pktmb ≠ RTE_ETHER_TYPE_MPLS then (pktmb, 0)
  else
    match rte_pktmbuf_adj pktmb MPLS_HDR_LEN with
    | none => (pktmb, -ENOSPC)
    | some m1 =>
      let b1 := copyBytes m1.buf m1.data_off (m1.data_off - MPLS_HDR_LEN)
                  RTE_ETHER_HDR_LEN
      let b2 := writeBE16 b1 (m1.data_off + 12) ethertype
      ({ m1 with buf := b2 }, 0)

def IPVERSION_MASK : Nat := 0xf0
def IP4_VERSION : Nat := 0x40
def IP6_VERSION : Nat := 0x60

/-- `mpls_deduce_ethertype` (src/fwd_engine.c lines 69-88): look at the byte
after the link-layer header (after the shim as well when the current
ethertype is the MPLS one) and classify by its top nibble. -/
def mpls_deduce_ethertype (pmb : Mbuf) : Nat :=
  let p := if readEtherTypeBE pmb = RTE_ETHER_TYPE_MPLS
           then RTE_ETHER_HDR_LEN + MPLS_HDR_LEN
           else RTE_ETHER_HDR_LEN
  if byteAt pmb p &&& IPVERSION_MASK = IP4_VERSION then RTE_ETHER_TYPE_IPV4
  else if byteAt pmb p &&& IPVERSION_MASK = IP6_VERSION then RTE_ETHER_TYPE_IPV6
  else 0

/-- The per-packet decapsulation path, as the loop body of
`mpls_remove_hdr_burst` (src/fwd_engine.c lines 100-110) performs it: deduce
the restored ethertype first; an unknown payload (sentinel 0) is skipped with
no mutation, otherwise the header is stripped. -/
def mpls_decap_one (m : Mbuf) : Mbuf × Int :=
  let etype := mpls_deduce_ethertype m
  if etype = 0 then (m, 0)
  else mpls_header_strip m etype

/-- Loop body of `mpls_add_hdr_burst` (src/fwd_engine.c lines 159-173),
carrying the index `n` of the next element: each element is replaced by the
result of `mpls_header_insert` and failures are logged (the returned list of
indices models the `fprintf` calls). -/
def mpls_add_hdr_burst_go (header : Nat) (n : Nat) :
    List Mbuf → List Mbuf × List Nat
  | [] => ([], [])
  | p :: ps =>
    let r := mpls_header_insert p header
    let rest := mpls_add_hdr_burst_go header (n + 1) ps
    (r.1 :: rest.1, if r.2 < 0 then n :: rest.2 else rest.2)

/-- `mpls_add_hdr_burst` on the burst array. -/
def mpls_add_hdr_burst (pkts : List Mbuf) (header : Nat) :
    List Mbuf × List Nat :=
  mpls_add_hdr_burst_go header 0 pkts

/-- The array handed to `rte_eth_tx_burst` by phase 1 of `fwd_worker_loop`
(src/fwd_engine.c lines 222-231): the whole received burst, after
`mpls_add_hdr_burst` ran over it. -/
def fwd_phase1_tx (pkts : List Mbuf) (header : Nat) : List Mbuf :=
  (mpls_add_hdr_burst pkts header).1

/-! ## Worker-loop control structure (src/fwd_engine.c lines 220-247)

The loop polls the process-wide `lets_quit` flag at the loop condition and
once more between the two phases.  A run is modelled against an oracle
`reads : Nat → Bool` giving the value returned by the k-th read of the flag;
each full iteration consumes two reads.  Phases (an entire
receive/transform/transmit burst) are atomic: the C code contains no flag
check inside a burst. -/

inductive FwdPhase where
  | encap
  | decap
deriving Repr, DecidableEq

/-- The sequence of phases executed by `fwd_worker_loop` from read index `k`
with the given fuel, together with whether the loop has terminated. -/
def fwd_loop_trace (reads : Nat → Bool) : Nat → Nat → List FwdPhase × Bool
  | 0, _ => ([], false)
  | fuel + 1, k =>
    if reads k then ([], true)
    else if reads (k + 1) then ([FwdPhase.encap], true)
    else
      let r := fwd_loop_trace reads fuel (k + 2)
      (FwdPhase.encap :: FwdPhase.decap :: r.1, r.2)

/-! ### Concrete buffers used by witnesses and counterexamples -/

/-- A well-formed exclusively-owned buffer: 4 bytes of headroom, a 64-byte
frame whose ethertype is IPv4 (0x0800) and whose payload starts with 0x45. -/
def mb_ok : Mbuf :=
  { buf := List.replicate 4 0 ++ List.replicate 12 0xaa ++
      [0x08, 0x00, 0x45] ++ List.replicate 49 0,
    data_off := 4, data_len := 64, pkt_len := 64,
    refcnt := 1, nb_segs := 1, direct := true }

/-- Like `mb_ok` but with a non-IP ethertype 0x1234 in front of an IPv4-looking
payload byte. -/
def mb_badtype : Mbuf :=
  { buf := List.replicate 4 0 ++ List.replicate 12 0xaa ++
      [0x12, 0x34, 0x45] ++ List.replicate 49 0,
    data_off := 4, data_len := 64, pkt_len := 64,
    refcnt := 1, nb_segs := 1, direct := true }

/-- Like `mb_ok` but shared: reference count 2. -/
def mb_shared : Mbuf :=
  { buf := List.replicate 4 0 ++ List.replicate 12 0xaa ++
      [0x08, 0x00, 0x45] ++ List.replicate 49 0,
    data_off := 4, data_len := 64, pkt_len := 64,
    refcnt := 2, nb_segs := 1, direct := true }

/-- Like `mb_ok` but a two-segment chain (first segment shown); it is direct
and has reference count 1. -/
def mb_twoseg : Mbuf :=
  { buf := List.replicate 4 0 ++ List.replicate 12 0xaa ++
      [0x08, 0x00, 0x45] ++ List.replicate 49 0,
    data_off := 4, data_len := 64, pkt_len := 80,
    refcnt := 1, nb_segs := 2, direct := true }

/-- Default element used when indexing packet arrays. -/
def mbNull : Mbuf :=
  { buf := [], data_off := 0, data_len := 0, pkt_len := 0,
    refcnt := 0, nb_segs := 0, direct := true }

/-! ## Core-list parsing (src/cmdlargs.c)

Strings are `List Char`.  `strtol(list, &end, 10)` is modelled by `strtol10`,
including its leading-whitespace skip, optional sign, ERANGE clamping to
`LONG_MAX`/`LONG_MIN`, and `endptr = nptr` when no conversion is performed.
The C code stores the `long` result in an `int`; on the LP64 targets this code
runs on that conversion truncates modulo 2^32 (two's complement), modelled by
`toInt32`. -/

/-- `isblank`: space or horizontal tab. -/
def isblankChar (c : Char) : Bool := c.toNat = 32 || c.toNat = 9

/-- `isspace`: space or one of `\t \n \v \f \r` (codes 9-13). -/
def isspaceChar (c : Char) : Bool :=
  c.toNat = 32 || (9 ≤ c.toNat && c.toNat ≤ 13)

/-- `isdigit`: a decimal digit (codes 48-57). -/
def isdigitChar (c : Char) : Bool := 48 ≤ c.toNat && c.toNat ≤ 57

/-- Head of the list is a decimal digit. -/
def startsDigit : List Char → Bool
  | [] => false
  | c :: _ => isdigitChar c

/-- Greedily consume decimal digits, accumulating the value. -/
def readDigits : List Char → Nat → Nat × List Char
  | [], acc => (acc, [])
  | c :: r, acc =>
    if isdigitChar c then readDigits r (acc * 10 + (c.toNat - 48))
    else (acc, c :: r)

structure StrtolResult where
  val : Int
  err : Bool
  rest : List Char
  conv : Bool
deriving Repr, DecidableEq

/-- Digits-and-sign part of `strtol`; `orig` is the pointer returned in
`endptr` when no conversion is performed. -/
def strtolNum (sign : Bool) (l orig : List Char) : StrtolResult :=
  if startsDigit l then
    if sign then
      if ((readDigits l 0).1 : Int) > 9223372036854775808 then
        ⟨-9223372036854775808, true, (readDigits l 0).2, true⟩
      else ⟨-((readDigits l 0).1 : Int), false, (readDigits l 0).2, true⟩
    else
      if ((readDigits l 0).1 : Int) > 9223372036854775807 then
        ⟨9223372036854775807, true, (readDigits l 0).2, true⟩
      else ⟨((readDigits l 0).1 : Int), false, (readDigits l 0).2, true⟩
  else ⟨0, false, orig, false⟩

/-- `strtol(l, &end, 10)` together with `errno == ERANGE` and whether a
conversion was performed.  45 and 43 are the codes of the minus and plus
signs. -/
def strtol10 (l : List Char) : StrtolResult :=
  match l.dropWhile isspaceChar with
  | [] => strtolNum false [] l
  | c :: r =>
    if c.toNat = 45 then strtolNum true r l
    else if c.toNat = 43 then strtolNum false r l
    else strtolNum false (c :: r) l

/-- Conversion of a `long` value to `int` (LP64, two's complement). -/
def toInt32 (x : Int) : Int :=
  let r := x % 4294967296
  if r < 2147483648 then r else r - 4294967296

def INT_MAX : Int := 2147483647

/-- The scan of `put_in_order` (src/cmdlargs.c lines 80-109): walk the sorted
prefix to the first element greater than `v` and insert there, shifting the
tail; `none` means the value was already present (the `goto __done` path). -/
def insert_before_ge (v : Nat) : List Nat → Option (List Nat)
  | [] => some [v]
  | a :: r =>
    if a > v then some (v :: a :: r)
    else if a = v then none
    else (insert_before_ge v r).map (fun r2 => a :: r2)

/-- `put_in_order`: the array is modelled by the list of its live elements
(`curr_n_elem` is the list length); the C `-1` overflow return is `none`. -/
def put_in_order (val : Nat) (arr : List Nat) (array_len : Nat) :
    Option (List Nat) :=
  match insert_before_ge val arr with
  | none => some arr
  | some a2 => if a2.length > array_len then none else some a2

/-- The `for (; min <= max; min++)` insertion loop of `parse_core_list`,
with its iteration count `max + 1 - min` paid up front. -/
def insertRangeLoop : Nat → Int → List Nat → Nat → Option (List Nat)
  | 0, _, cores, _ => some cores
  | k + 1, mn, cores, cores_len =>
    match put_in_order mn.toNat cores cores_len with
    | none => none
    | some cs => insertRangeLoop k (mn + 1) cs cores_len

/-- The `do … while (*end != '\0')` loop of `parse_core_list`
(src/cmdlargs.c lines 135-172).  `mn` is the C `min` variable with its
`INT_MAX` "no open range" sentinel; the fuel only bounds the recursion and is
never exhausted when it exceeds the input length (each iteration consumes at
least two characters before recursing). -/
def parse_loop : Nat → List Char → List Nat → Nat → Int → Nat × List Nat
  | 0, _, _, _, _ => (0, [])
  | fuel + 1, l, cores, cores_len, mn =>
    match l.dropWhile isblankChar with
    | [] => (cores.length, cores)
    | l1@(_ :: _) =>
      let s := strtol10 l1
      let val := toInt32 s.val
      if s.err ∨ val < 0 then (0, [])
      else if val = 0 ∧ s.conv = false then (0, [])
      else
        match s.rest.dropWhile isblankChar with
        | [] =>
          let mn2 := if mn = INT_MAX then val else mn
          match insertRangeLoop (val + 1 - mn2).toNat mn2 cores cores_len with
          | none => (0, [])
          | some cs => (cs.length, cs)
        | c :: rest =>
          if c.toNat = 44 then
            let mn2 := if mn = INT_MAX then val else mn
            match insertRangeLoop (val + 1 - mn2).toNat mn2 cores cores_len
            with
            | none => (0, [])
            | some cs => parse_loop fuel rest cs cores_len INT_MAX
          else if c.toNat = 45 ∧ mn = INT_MAX then
            parse_loop fuel rest cores cores_len val
          else (0, [])

/-- `parse_core_list` (src/cmdlargs.c lines 120-175): returns the number of
cores found together with the filled prefix of the array, `(0, [])` when
parsing fails. -/
def parse_core_list (list : List Char) (cores_len : Nat) : Nat × List Nat :=
  if cores_len = 0 then (0, [])
  else parse_loop (list.length + 1) list [] cores_len INT_MAX

/-- Continuation of one `parse_loop` iteration after a numeral of value `v`
has been read: the behaviour determined by the rest `r` of the input
(used to state the iteration lemma without a dependent match). -/
def itemCont (v : Int) (f : Nat) (r : List Char) (cores : List Nat)
    (len : Nat) (mn : Int) : Nat × List Nat :=
  match r with
  | [] =>
    (match insertRangeLoop (v + 1 - (if mn = INT_MAX then v else mn)).toNat
        (if mn = INT_MAX then v else mn) cores len with
     | none => (0, [])
     | some cs => (cs.length, cs))
  | c :: rest =>
    if c.toNat = 44 then
      match insertRangeLoop (v + 1 - (if mn = INT_MAX then v else mn)).toNat
          (if mn = INT_MAX then v else mn) cores len with
      | none => (0, [])
      | some cs => parse_loop f rest cs len INT_MAX
    else if c.toNat = 45 ∧ mn = INT_MAX then parse_loop f rest cores len v
    else (0, [])

/-! ### The core-list grammar of the specification

`RendersList toks l` says the string `l` is a well-formed core list denoting
the token sequence `toks`: comma-separated tokens, each a single non-negative
decimal numeral or a hyphenated `low-high` range, with optional blanks around
numerals.  `denotes` is the set of values the spec says the tokens stand
for. -/

def Blanks (l : List Char) : Prop := ∀ c ∈ l, isblankChar c = true

def IsNum (l : List Char) : Prop := l ≠ [] ∧ ∀ c ∈ l, isdigitChar c = true

def numVal (l : List Char) : Nat :=
  l.foldl (fun a c => a * 10 + (c.toNat - 48)) 0

inductive CoreTok where
  | single (ds : List Char)
  | range (ds1 ds2 : List Char)

/-- Numeral values must be representable in the C `int` the parser uses and
must stay clear of the `INT_MAX` "no open range" sentinel. -/
def tokWF : CoreTok → Prop
  | CoreTok.single ds => IsNum ds ∧ numVal ds < 2147483647
  | CoreTok.range ds1 ds2 =>
      IsNum ds1 ∧ IsNum ds2 ∧ numVal ds1 < 2147483647 ∧
        numVal ds2 < 2147483647

def tokDen : CoreTok → Finset Nat
  | CoreTok.single ds => {numVal ds}
  | CoreTok.range ds1 ds2 => Finset.Icc (numVal ds1) (numVal ds2)

def denotes : List CoreTok → Finset Nat
  | [] => ∅
  | t :: ts => tokDen t ∪ denotes ts

inductive RendersItem : CoreTok → List Char → Prop where
  | single (b1 ds b2 : List Char) : Blanks b1 → Blanks b2 → IsNum ds →
      RendersItem (CoreTok.single ds) (b1 ++ ds ++ b2)
  | range (b1 ds1 b2 b3 ds2 b4 : List Char) :
      Blanks b1 → Blanks b2 → Blanks b3 → Blanks b4 → IsNum ds1 → IsNum ds2 →
      RendersItem (CoreTok.range ds1 ds2)
        (b1 ++ ds1 ++ b2 ++ '-' :: (b3 ++ ds2 ++ b4))

inductive RendersList : List CoreTok → List Char → Prop where
  | nil (b : List Char) : Blanks b → RendersList [] b
  | last (t : CoreTok) (l : List Char) : RendersItem t l → RendersList [t] l
  | cons (t : CoreTok) (l : List Char) (ts : List CoreTok) (l2 : List Char) :
      RendersItem t l → RendersList ts l2 → ts ≠ [] →
      RendersList (t :: ts) (l ++ ',' :: l2)

/-- The insertions `parse_core_list` performs for one token. -/
def insertTok : CoreTok → List Nat → Nat → Option (List Nat)
  | CoreTok.single ds, cores, len =>
      insertRangeLoop 1 (numVal ds : Int) cores len
  | CoreTok.range d1 d2, cores, len =>
      insertRangeLoop ((numVal d2 : Int) + 1 - (numVal d1 : Int)).toNat
        (numVal d1 : Int) cores len

/-- A suffix on which the loop's number scan fails immediately: after blank
skipping something remains, and `strtol` either sets ERANGE, produces a
negative `int`, or performs no conversion.  This captures the claim's "empty
token" (a comma follows at once), "negative number" and "unexpected
character" malformed constructs. -/
def BadStart (s : List Char) : Prop :=
  s.dropWhile isblankChar ≠ [] ∧
  ((strtol10 (s.dropWhile isblankChar)).err = true ∨
   toInt32 (strtol10 (s.dropWhile isblankChar)).val < 0 ∨
   (strtol10 (s.dropWhile isblankChar)).conv = false)

instance (s : List Char) : Decidable (BadStart s) := by
  unfold BadStart
  infer_instance

/-- A reversed (empty-denotation) range token. -/
def isRevTok : CoreTok → Bool
  | CoreTok.single _ => false
  | CoreTok.range d1 d2 => decide (numVal d2 < numVal d1)

instance (l : List Char) : Decidable (Blanks l) := by
  unfold Blanks
  infer_instance

instance (l : List Char) : Decidable (IsNum l) := by
  unfold IsNum
  infer_instance

instance (t : CoreTok) : Decidable (tokWF t) := by
  cases t <;> unfold tokWF <;> infer_instance

/-! ### Bit-level helper lemmas for the codec -/

theorem testBit_label_mask (i : Nat) :
    MPLS_HDR_LABEL_MASK.testBit i = decide (i < 20) := by
  have h : MPLS_HDR_LABEL_MASK = 2 ^ 20 - 1 := by decide
  rw [h, Nat.testBit_two_pow_sub_one]

theorem testBit_tc_mask (i : Nat) :
    MPLS_HDR_TC_MASK.testBit i = decide (i < 3) := by
  have h : MPLS_HDR_TC_MASK = 2 ^ 3 - 1 := by decide
  rw [h, Nat.testBit_two_pow_sub_one]

theorem testBit_eos_mask (i : Nat) :
    MPLS_HDR_EOS_MASK.testBit i = decide (i < 1) := by
  have h : MPLS_HDR_EOS_MASK = 2 ^ 1 - 1 := by decide
  rw [h, Nat.testBit_two_pow_sub_one]

theorem testBit_ttl_mask (i : Nat) :
    MPLS_HDR_TTL_MASK.testBit i = decide (i < 8) := by
  have h : MPLS_HDR_TTL_MASK = 2 ^ 8 - 1 := by decide
  rw [h, Nat.testBit_two_pow_sub_one]

theorem testBit_all32 (i : Nat) :
    (0xffffffff : Nat).testBit i = decide (i < 32) := by
  have h : (0xffffffff : Nat) = 2 ^ 32 - 1 := by decide
  rw [h, Nat.testBit_two_pow_sub_one]

theorem testBit_ge32 (h i : Nat) (hh : h < 2 ^ 32) (hi : 32 ≤ i) :
    h.testBit i = false :=
  Nat.testBit_lt_two_pow
    (Nat.lt_of_lt_of_le hh (Nat.pow_le_pow_right (by omega) hi))

/-- Round-trip for the label field: the 20-bit mask is applied on set. -/
theorem get_set_label (h v : Nat) :
    mpls_get_label (mpls_set_label h v) = v &&& MPLS_HDR_LABEL_MASK := by
  apply Nat.eq_of_testBit_eq
  intro i
  simp only [mpls_get_label, mpls_set_label, MPLS_HDR_LABEL_BITS, not32,
    MPLS_HDR_LABEL_SHIFT, Nat.testBit_shiftRight, Nat.testBit_lor,
    Nat.testBit_land, Nat.testBit_xor, Nat.testBit_shiftLeft, testBit_label_mask,
    testBit_all32]
  by_cases h32 : 12 + i < 32 <;> by_cases h20 : i < 20 <;>
    simp [h32, h20, Nat.add_sub_cancel_left, show (12:Nat) ≤ 12 + i by omega] <;>
    omega

theorem get_set_tc (h v : Nat) :
    mpls_get_tc (mpls_set_tc h v) = v &&& MPLS_HDR_TC_MASK := by
  apply Nat.eq_of_testBit_eq
  intro i
  simp only [mpls_get_tc, mpls_set_tc, MPLS_HDR_TC_BITS, not32,
    MPLS_HDR_TC_SHIFT, Nat.testBit_shiftRight, Nat.testBit_lor,
    Nat.testBit_land, Nat.testBit_xor, Nat.testBit_shiftLeft, testBit_tc_mask,
    testBit_all32]
  have h9 : (9:Nat) ≤ 9 + i := by omega
  have e1 : 9 + i - 9 = i := by omega
  by_cases h3 : i < 3
  · simp [h9, e1, h3, show 9 + i < 32 by omega]
  · simp [h3]

theorem get_set_eos (h v : Nat) :
    mpls_get_eos (mpls_set_eos h v) = v &&& MPLS_HDR_EOS_MASK := by
  apply Nat.eq_of_testBit_eq
  intro i
  simp only [mpls_get_eos, mpls_set_eos, MPLS_HDR_EOS_BIT, not32,
    MPLS_HDR_EOS_SHIFT, Nat.testBit_shiftRight, Nat.testBit_lor,
    Nat.testBit_land, Nat.testBit_xor, Nat.testBit_shiftLeft, testBit_eos_mask,
    testBit_all32]
  have h8 : (8:Nat) ≤ 8 + i := by omega
  have e1 : 8 + i - 8 = i := by omega
  by_cases h1 : i < 1
  · simp [h8, e1, h1, show 8 + i < 32 by omega]
  · simp [h1]

theorem get_set_ttl (h v : Nat) :
    mpls_get_ttl (mpls_set_ttl h v) = v &&& MPLS_HDR_TTL_MASK := by
  apply Nat.eq_of_testBit_eq
  intro i
  simp only [mpls_get_ttl, mpls_set_ttl, MPLS_HDR_TTL_BITS, not32,
    MPLS_HDR_TTL_SHIFT, Nat.testBit_shiftRight, Nat.testBit_lor,
    Nat.testBit_land, Nat.testBit_xor, Nat.testBit_shiftLeft, testBit_ttl_mask,
    testBit_all32, Nat.zero_add, Nat.shiftLeft_zero, Nat.shiftRight_zero]
  by_cases h8 : i < 8
  · simp [h8, show i < 32 by omega]
  · simp [h8]

theorem get_tc_set_label (h v : Nat) :
    mpls_get_tc (mpls_set_label h v) = mpls_get_tc h := by
  apply Nat.eq_of_testBit_eq
  intro i
  simp only [mpls_get_tc, mpls_set_label, MPLS_HDR_LABEL_BITS, not32,
    MPLS_HDR_LABEL_SHIFT, MPLS_HDR_TC_SHIFT, Nat.testBit_shiftRight,
    Nat.testBit_lor, Nat.testBit_land, Nat.testBit_xor, Nat.testBit_shiftLeft,
    testBit_label_mask, testBit_tc_mask, testBit_all32]
  by_cases h3 : i < 3
  · simp [h3, show ¬(12 ≤ 9 + i) from by omega, show 9 + i < 32 by omega]
  · simp [h3]

theorem get_eos_set_label (h v : Nat) :
    mpls_get_eos (mpls_set_label h v) = mpls_get_eos h := by
  apply Nat.eq_of_testBit_eq
  intro i
  simp only [mpls_get_eos, mpls_set_label, MPLS_HDR_LABEL_BITS, not32,
    MPLS_HDR_LABEL_SHIFT, MPLS_HDR_EOS_SHIFT, Nat.testBit_shiftRight,
    Nat.testBit_lor, Nat.testBit_land, Nat.testBit_xor, Nat.testBit_shiftLeft,
    testBit_label_mask, testBit_eos_mask, testBit_all32]
  by_cases h1 : i < 1
  · simp [h1, show ¬(12 ≤ 8 + i) from by omega, show 8 + i < 32 by omega]
  · simp [h1]

theorem get_ttl_set_label (h v : Nat) :
    mpls_get_ttl (mpls_set_label h v) = mpls_get_ttl h := by
  apply Nat.eq_of_testBit_eq
  intro i
  simp only [mpls_get_ttl, mpls_set_label, MPLS_HDR_LABEL_BITS, not32,
    MPLS_HDR_LABEL_SHIFT, MPLS_HDR_TTL_SHIFT, Nat.testBit_shiftRight,
    Nat.testBit_lor, Nat.testBit_land, Nat.testBit_xor, Nat.testBit_shiftLeft,
    testBit_label_mask, testBit_ttl_mask, testBit_all32, Nat.zero_add,
    Nat.shiftRight_zero]
  by_cases h8 : i < 8
  · simp [h8, show ¬(12 ≤ i) from by omega, show i < 32 by omega]
  · simp [h8]

theorem get_label_set_tc (h v : Nat) (hh : h < 2 ^ 32) :
    mpls_get_label (mpls_set_tc h v) = mpls_get_label h := by
  apply Nat.eq_of_testBit_eq
  intro i
  simp only [mpls_get_label, mpls_set_tc, MPLS_HDR_TC_BITS, not32,
    MPLS_HDR_TC_SHIFT, MPLS_HDR_LABEL_SHIFT, Nat.testBit_shiftRight,
    Nat.testBit_lor, Nat.testBit_land, Nat.testBit_xor, Nat.testBit_shiftLeft,
    testBit_tc_mask, testBit_all32]
  have h9 : (9:Nat) ≤ 12 + i := by omega
  have e1 : 12 + i - 9 = 3 + i := by omega
  by_cases h32 : 12 + i < 32
  · simp [h32, h9, e1]
  · simp [h32, h9, e1, testBit_ge32 h (12 + i) hh (by omega)]

theorem get_eos_set_tc (h v : Nat) :
    mpls_get_eos (mpls_set_tc h v) = mpls_get_eos h := by
  apply Nat.eq_of_testBit_eq
  intro i
  simp only [mpls_get_eos, mpls_set_tc, MPLS_HDR_TC_BITS, not32,
    MPLS_HDR_TC_SHIFT, MPLS_HDR_EOS_SHIFT, Nat.testBit_shiftRight,
    Nat.testBit_lor, Nat.testBit_land, Nat.testBit_xor, Nat.testBit_shiftLeft,
    testBit_tc_mask, testBit_eos_mask, testBit_all32]
  by_cases h1 : i < 1
  · simp [h1, show ¬(9 ≤ 8 + i) from by omega, show 8 + i < 32 by omega]
  · simp [h1]

theorem get_ttl_set_tc (h v : Nat) :
    mpls_get_ttl (mpls_set_tc h v) = mpls_get_ttl h := by
  apply Nat.eq_of_testBit_eq
  intro i
  simp only [mpls_get_ttl, mpls_set_tc, MPLS_HDR_TC_BITS, not32,
    MPLS_HDR_TC_SHIFT, MPLS_HDR_TTL_SHIFT, Nat.testBit_shiftRight,
    Nat.testBit_lor, Nat.testBit_land, Nat.testBit_xor, Nat.testBit_shiftLeft,
    testBit_tc_mask, testBit_ttl_mask, testBit_all32, Nat.zero_add,
    Nat.shiftRight_zero]
  by_cases h8 : i < 8
  · simp [h8, show ¬(9 ≤ i) from by omega, show i < 32 by omega]
  · simp [h8]

theorem get_label_set_eos (h v : Nat) (hh : h < 2 ^ 32) :
    mpls_get_label (mpls_set_eos h v) = mpls_get_label h := by
  apply Nat.eq_of_testBit_eq
  intro i
  simp only [mpls_get_label, mpls_set_eos, MPLS_HDR_EOS_BIT, not32,
    MPLS_HDR_EOS_SHIFT, MPLS_HDR_LABEL_SHIFT, Nat.testBit_shiftRight,
    Nat.testBit_lor, Nat.testBit_land, Nat.testBit_xor, Nat.testBit_shiftLeft,
    testBit_eos_mask, testBit_all32]
  have h8 : (8:Nat) ≤ 12 + i := by omega
  have e1 : 12 + i - 8 = 4 + i := by omega
  by_cases h32 : 12 + i < 32
  · simp [h32, h8, e1]
  · simp [h32, h8, e1, testBit_ge32 h (12 + i) hh (by omega)]

theorem get_tc_set_eos (h v : Nat) :
    mpls_get_tc (mpls_set_eos h v) = mpls_get_tc h := by
  apply Nat.eq_of_testBit_eq
  intro i
  simp only [mpls_get_tc, mpls_set_eos, MPLS_HDR_EOS_BIT, not32,
    MPLS_HDR_EOS_SHIFT, MPLS_HDR_TC_SHIFT, Nat.testBit_shiftRight,
    Nat.testBit_lor, Nat.testBit_land, Nat.testBit_xor, Nat.testBit_shiftLeft,
    testBit_eos_mask, testBit_tc_mask, testBit_all32]
  have h8 : (8:Nat) ≤ 9 + i := by omega
  have e1 : 9 + i - 8 = 1 + i := by omega
  by_cases h3 : i < 3
  · simp [h3, h8, e1, show 9 + i < 32 by omega]
  · simp [h3]

theorem get_ttl_set_eos (h v : Nat) :
    mpls_get_ttl (mpls_set_eos h v) = mpls_get_ttl h := by
  apply Nat.eq_of_testBit_eq
  intro i
  simp only [mpls_get_ttl, mpls_set_eos, MPLS_HDR_EOS_BIT, not32,
    MPLS_HDR_EOS_SHIFT, MPLS_HDR_TTL_SHIFT, Nat.testBit_shiftRight,
    Nat.testBit_lor, Nat.testBit_land, Nat.testBit_xor, Nat.testBit_shiftLeft,
    testBit_eos_mask, testBit_ttl_mask, testBit_all32, Nat.zero_add,
    Nat.shiftRight_zero]
  by_cases h8 : i < 8
  · simp [h8, show ¬(8 ≤ i) from by omega, show i < 32 by omega]
  · simp [h8]

theorem get_label_set_ttl (h v : Nat) (hh : h < 2 ^ 32) :
    mpls_get_label (mpls_set_ttl h v) = mpls_get_label h := by
  apply Nat.eq_of_testBit_eq
  intro i
  simp only [mpls_get_label, mpls_set_ttl, MPLS_HDR_TTL_BITS, not32,
    MPLS_HDR_TTL_SHIFT, MPLS_HDR_LABEL_SHIFT, Nat.testBit_shiftRight,
    Nat.testBit_lor, Nat.testBit_land, Nat.testBit_xor, Nat.testBit_shiftLeft,
    testBit_ttl_mask, testBit_all32, Nat.shiftLeft_zero]
  by_cases h32 : 12 + i < 32
  · simp [h32, show ¬(12 + i < 8) from by omega]
  · simp [h32, show ¬(12 + i < 8) from by omega,
      testBit_ge32 h (12 + i) hh (by omega)]

theorem get_tc_set_ttl (h v : Nat) :
    mpls_get_tc (mpls_set_ttl h v) = mpls_get_tc h := by
  apply Nat.eq_of_testBit_eq
  intro i
  simp only [mpls_get_tc, mpls_set_ttl, MPLS_HDR_TTL_BITS, not32,
    MPLS_HDR_TTL_SHIFT, MPLS_HDR_TC_SHIFT, Nat.testBit_shiftRight,
    Nat.testBit_lor, Nat.testBit_land, Nat.testBit_xor, Nat.testBit_shiftLeft,
    testBit_ttl_mask, testBit_tc_mask, testBit_all32, Nat.shiftLeft_zero]
  by_cases h3 : i < 3
  · simp [h3, show ¬(9 + i < 8) from by omega, show 9 + i < 32 by omega]
  · simp [h3]

theorem get_eos_set_ttl (h v : Nat) :
    mpls_get_eos (mpls_set_ttl h v) = mpls_get_eos h := by
  apply Nat.eq_of_testBit_eq
  intro i
  simp only [mpls_get_eos, mpls_set_ttl, MPLS_HDR_TTL_BITS, not32,
    MPLS_HDR_TTL_SHIFT, MPLS_HDR_EOS_SHIFT, Nat.testBit_shiftRight,
    Nat.testBit_lor, Nat.testBit_land, Nat.testBit_xor, Nat.testBit_shiftLeft,
    testBit_ttl_mask, testBit_eos_mask, testBit_all32, Nat.shiftLeft_zero]
  by_cases h1 : i < 1
  · simp [h1, show ¬(8 + i < 8) from by omega, show 8 + i < 32 by omega]
  · simp [h1]

/-! ### Byte-level helper lemmas for the buffer model -/

theorem length_copyBytes (buf : List Nat) (dst src n : Nat) :
    (copyBytes buf dst src n).length = buf.length := by
  simp [copyBytes]

theorem getD_copyBytes (buf : List Nat) (dst src n i : Nat)
    (hi : i < buf.length) :
    (copyBytes buf dst src n).getD i 0 =
      if dst ≤ i ∧ i < dst + n then buf.getD (src + (i - dst)) 0
      else buf.getD i 0 := by
  rw [copyBytes, List.getD_eq_getElem?_getD, List.getElem?_map,
    List.getElem?_range hi]
  simp

theorem getD_copyBytes_out (buf : List Nat) (dst src n i : Nat)
    (hi : ¬ i < buf.length) :
    (copyBytes buf dst src n).getD i 0 = 0 := by
  rw [List.getD_eq_getElem?_getD, List.getElem?_eq_none]
  · rfl
  · rw [length_copyBytes]; omega

theorem getD_set_ne (l : List Nat) (j v i : Nat) (h : j ≠ i) :
    (l.set j v).getD i 0 = l.getD i 0 := by
  rw [List.getD_eq_getElem?_getD, List.getD_eq_getElem?_getD,
    List.getElem?_set_ne h]

theorem getD_set_self (l : List Nat) (j v : Nat) (h : j < l.length) :
    (l.set j v).getD j 0 = v := by
  rw [List.getD_eq_getElem?_getD, List.getElem?_set_self (h := h)]
  rfl

theorem length_writeBE16 (buf : List Nat) (i v : Nat) :
    (writeBE16 buf i v).length = buf.length := by
  simp [writeBE16]

theorem length_writeBE32 (buf : List Nat) (i v : Nat) :
    (writeBE32 buf i v).length = buf.length := by
  simp [writeBE32]

theorem getD_writeBE16_out (buf : List Nat) (i v j : Nat)
    (h : j < i ∨ i + 2 ≤ j) :
    (writeBE16 buf i v).getD j 0 = buf.getD j 0 := by
  unfold writeBE16
  rw [getD_set_ne _ _ _ _ (by omega), getD_set_ne _ _ _ _ (by omega)]

theorem getD_writeBE16_lo (buf : List Nat) (i v : Nat) (h : i < buf.length) :
    (writeBE16 buf i v).getD i 0 = v / 256 % 256 := by
  unfold writeBE16
  rw [getD_set_ne _ _ _ _ (by omega), getD_set_self _ _ _ h]

theorem getD_writeBE16_hi (buf : List Nat) (i v : Nat)
    (h : i + 1 < buf.length) :
    (writeBE16 buf i v).getD (i + 1) 0 = v % 256 := by
  unfold writeBE16
  exact getD_set_self _ _ _ (by simpa using h)

theorem getD_writeBE32_out (buf : List Nat) (i v j : Nat)
    (h : j < i ∨ i + 4 ≤ j) :
    (writeBE32 buf i v).getD j 0 = buf.getD j 0 := by
  unfold writeBE32
  rw [getD_set_ne _ _ _ _ (by omega), getD_set_ne _ _ _ _ (by omega),
    getD_set_ne _ _ _ _ (by omega), getD_set_ne _ _ _ _ (by omega)]

theorem getD_writeBE32_at (buf : List Nat) (i v : Nat)
    (h : i + 3 < buf.length) :
    (writeBE32 buf i v).getD i 0 = v / 16777216 % 256 ∧
    (writeBE32 buf i v).getD (i + 1) 0 = v / 65536 % 256 ∧
    (writeBE32 buf i v).getD (i + 2) 0 = v / 256 % 256 ∧
    (writeBE32 buf i v).getD (i + 3) 0 = v % 256 := by
  unfold writeBE32
  refine ⟨?_, ?_, ?_, ?_⟩
  · rw [getD_set_ne _ _ _ _ (by omega), getD_set_ne _ _ _ _ (by omega),
      getD_set_ne _ _ _ _ (by omega), getD_set_self _ _ _ (by omega)]
  · rw [getD_set_ne _ _ _ _ (by omega), getD_set_ne _ _ _ _ (by omega),
      getD_set_self _ _ _ (by simp; omega)]
  · rw [getD_set_ne _ _ _ _ (by omega),
      getD_set_self _ _ _ (by simp; omega)]
  · rw [getD_set_self _ _ _ (by simp; omega)]

/-! ### Behaviour of `mpls_header_insert` and `mpls_header_strip` under their
preconditions -/

theorem mpls_header_insert_spec (m : Mbuf) (hdr : Nat)
    (hdir : m.direct = true) (href : m.refcnt ≤ 1)
    (hlen : RTE_ETHER_MIN_LEN ≤ m.data_len)
    (hroom : MPLS_HDR_LEN ≤ m.data_off)
    (hwf : m.data_off + m.data_len ≤ m.buf.length) :
    (mpls_header_insert m hdr).2 = 0 ∧
    ((mpls_header_insert m hdr).1.data_off = m.data_off - 4 ∧
     (mpls_header_insert m hdr).1.data_len = m.data_len + 4 ∧
     (mpls_header_insert m hdr).1.pkt_len = m.pkt_len + 4 ∧
     (mpls_header_insert m hdr).1.buf.length = m.buf.length) ∧
    (∀ i, i < 12 → byteAt (mpls_header_insert m hdr).1 i = byteAt m i) ∧
    (byteAt (mpls_header_insert m hdr).1 12 = 0x88 ∧
     byteAt (mpls_header_insert m hdr).1 13 = 0x47) ∧
    (byteAt (mpls_header_insert m hdr).1 14 = hdr / 16777216 % 256 ∧
     byteAt (mpls_header_insert m hdr).1 15 = hdr / 65536 % 256 ∧
     byteAt (mpls_header_insert m hdr).1 16 = hdr / 256 % 256 ∧
     byteAt (mpls_header_insert m hdr).1 17 = hdr % 256) ∧
    (∀ i, 18 ≤ i → byteAt (mpls_header_insert m hdr).1 i = byteAt m (i - 4)) := by
  have hc1 : ¬ (¬ m.direct = true ∨ m.refcnt > 1) := by
    simp [hdir]; omega
  have hc2 : ¬ m.data_len < RTE_ETHER_MIN_LEN := by omega
  have hc3 : ¬ MPLS_HDR_LEN > rte_pktmbuf_headroom m := by
    simp [rte_pktmbuf_headroom, MPLS_HDR_LEN] at hroom ⊢; omega
  have hmin : RTE_ETHER_MIN_LEN = 64 := rfl
  have hroom4 : 4 ≤ m.data_off := hroom
  have hL : m.data_off + 64 ≤ m.buf.length := by
    have := hlen; rw [hmin] at this; omega
  rw [mpls_header_insert, if_neg hc1, if_neg hc2, rte_pktmbuf_prepend,
    if_neg hc3]
  simp only [MPLS_HDR_LEN, RTE_ETHER_HDR_LEN, RTE_ETHER_TYPE_MPLS]
  set o := m.data_off with ho
  refine ⟨by simp, ⟨by simp, by simp, by simp, by
    simp [length_writeBE32, length_writeBE16, length_copyBytes]⟩, ?_, ?_, ?_, ?_⟩
  · intro i hi
    show (writeBE32 (writeBE16 (copyBytes m.buf (o - 4) (o - 4 + 4) 14)
        (o - 4 + 12) 34887) (o - 4 + 14) hdr).getD (o - 4 + i) 0 = byteAt m i
    rw [getD_writeBE32_out _ _ _ _ (by omega),
      getD_writeBE16_out _ _ _ _ (by omega),
      getD_copyBytes _ _ _ _ _ (by omega),
      if_pos (by omega)]
    rw [byteAt, show o - 4 + 4 + (o - 4 + i - (o - 4)) = o + i by omega]
  · constructor
    · show (writeBE32 (writeBE16 (copyBytes m.buf (o - 4) (o - 4 + 4) 14)
          (o - 4 + 12) 34887) (o - 4 + 14) hdr).getD (o - 4 + 12) 0 = 0x88
      rw [getD_writeBE32_out _ _ _ _ (by omega),
        getD_writeBE16_lo _ _ _ (by rw [length_copyBytes]; omega)]
    · show (writeBE32 (writeBE16 (copyBytes m.buf (o - 4) (o - 4 + 4) 14)
          (o - 4 + 12) 34887) (o - 4 + 14) hdr).getD (o - 4 + 13) 0 = 0x47
      rw [getD_writeBE32_out _ _ _ _ (by omega),
        show o - 4 + 13 = (o - 4 + 12) + 1 by omega,
        getD_writeBE16_hi _ _ _ (by rw [length_copyBytes]; omega)]
  · have hlen32 : o - 4 + 14 + 3 <
        (writeBE16 (copyBytes m.buf (o - 4) (o - 4 + 4) 14)
          (o - 4 + 12) 34887).length := by
      rw [length_writeBE16, length_copyBytes]; omega
    have h32 := getD_writeBE32_at
      (writeBE16 (copyBytes m.buf (o - 4) (o - 4 + 4) 14) (o - 4 + 12) 34887)
      (o - 4 + 14) hdr hlen32
    refine ⟨h32.1, ?_, ?_, ?_⟩
    · show (writeBE32 (writeBE16 (copyBytes m.buf (o - 4) (o - 4 + 4) 14)
          (o - 4 + 12) 34887) (o - 4 + 14) hdr).getD (o - 4 + 15) 0 =
        hdr / 65536 % 256
      rw [show o - 4 + 15 = (o - 4 + 14) + 1 by omega]
      exact h32.2.1
    · show (writeBE32 (writeBE16 (copyBytes m.buf (o - 4) (o - 4 + 4) 14)
          (o - 4 + 12) 34887) (o - 4 + 14) hdr).getD (o - 4 + 16) 0 =
        hdr / 256 % 256
      rw [show o - 4 + 16 = (o - 4 + 14) + 2 by omega]
      exact h32.2.2.1
    · show (writeBE32 (writeBE16 (copyBytes m.buf (o - 4) (o - 4 + 4) 14)
          (o - 4 + 12) 34887) (o - 4 + 14) hdr).getD (o - 4 + 17) 0 =
        hdr % 256
      rw [show o - 4 + 17 = (o - 4 + 14) + 3 by omega]
      exact h32.2.2.2
  · intro i hi
    show (writeBE32 (writeBE16 (copyBytes m.buf (o - 4) (o - 4 + 4) 14)
        (o - 4 + 12) 34887) (o - 4 + 14) hdr).getD (o - 4 + i) 0 =
      byteAt m (i - 4)
    rw [getD_writeBE32_out _ _ _ _ (by omega),
      getD_writeBE16_out _ _ _ _ (by omega)]
    by_cases hin : o - 4 + i < m.buf.length
    · rw [getD_copyBytes _ _ _ _ _ hin, if_neg (by omega), byteAt,
        show o + (i - 4) = o - 4 + i by omega]
    · rw [getD_copyBytes_out _ _ _ _ _ hin, byteAt,
        List.getD_eq_default _ _ (by omega)]

theorem mpls_header_strip_spec (m : Mbuf) (et : Nat)
    (hmpls : readEtherTypeBE m = RTE_ETHER_TYPE_MPLS)
    (hlen : 18 ≤ m.data_len)
    (hwf : m.data_off + m.data_len ≤ m.buf.length) :
    (mpls_header_strip m et).2 = 0 ∧
    ((mpls_header_strip m et).1.data_off = m.data_off + 4 ∧
     (mpls_header_strip m et).1.data_len = m.data_len - 4 ∧
     (mpls_header_strip m et).1.pkt_len = m.pkt_len - 4 ∧
     (mpls_header_strip m et).1.buf.length = m.buf.length) ∧
    (∀ j, j < 12 → byteAt (mpls_header_strip m et).1 j = byteAt m j) ∧
    (byteAt (mpls_header_strip m et).1 12 = et / 256 % 256 ∧
     byteAt (mpls_header_strip m et).1 13 = et % 256) ∧
    (∀ j, 14 ≤ j → byteAt (mpls_header_strip m et).1 j = byteAt m (j + 4)) := by
  have hc1 : ¬ readEtherTypeBE m ≠ RTE_ETHER_TYPE_MPLS := by simp [hmpls]
  have hc2 : ¬ MPLS_HDR_LEN > m.data_len := by
    simp [MPLS_HDR_LEN]; omega
  rw [mpls_header_strip, if_neg hc1, rte_pktmbuf_adj, if_neg hc2]
  simp only [MPLS_HDR_LEN, RTE_ETHER_HDR_LEN]
  set o := m.data_off with ho
  have hL : o + 18 ≤ m.buf.length := by omega
  refine ⟨by simp, ⟨by simp, by simp, by simp,
    by simp [length_writeBE16, length_copyBytes]⟩, ?_, ?_, ?_⟩
  · intro j hj
    show (writeBE16 (copyBytes m.buf (o + 4) (o + 4 - 4) 14)
        (o + 4 + 12) et).getD (o + 4 + j) 0 = byteAt m j
    rw [getD_writeBE16_out _ _ _ _ (by omega),
      getD_copyBytes _ _ _ _ _ (by omega), if_pos (by omega), byteAt,
      show o + 4 - 4 + (o + 4 + j - (o + 4)) = o + j by omega]
  · constructor
    · show (writeBE16 (copyBytes m.buf (o + 4) (o + 4 - 4) 14)
          (o + 4 + 12) et).getD (o + 4 + 12) 0 = et / 256 % 256
      rw [getD_writeBE16_lo _ _ _ (by rw [length_copyBytes]; omega)]
    · show (writeBE16 (copyBytes m.buf (o + 4) (o + 4 - 4) 14)
          (o + 4 + 12) et).getD (o + 4 + 13) 0 = et % 256
      rw [show o + 4 + 13 = (o + 4 + 12) + 1 by omega,
        getD_writeBE16_hi _ _ _ (by rw [length_copyBytes]; omega)]
  · intro j hj
    show (writeBE16 (copyBytes m.buf (o + 4) (o + 4 - 4) 14)
        (o + 4 + 12) et).getD (o + 4 + j) 0 = byteAt m (j + 4)
    rw [getD_writeBE16_out _ _ _ _ (by omega)]
    by_cases hin : o + 4 + j < m.buf.length
    · rw [getD_copyBytes _ _ _ _ _ hin, if_neg (by omega), byteAt,
        show o + (j + 4) = o + 4 + j by omega]
    · rw [getD_copyBytes_out _ _ _ _ _ hin, byteAt,
        List.getD_eq_default _ _ (by omega)]

/-! ## Claim C2: codec round-trip and field independence -/

/-- C2: for every 32-bit MPLS header value `h`, every field in
{label, tc, eos, ttl} and every 32-bit input `v`, the getter applied after the
corresponding setter returns `v` masked to the field's width (label 20 bits,
tc 3 bits, eos 1 bit, ttl 8 bits), and each setter leaves every other field of
`h` unchanged. -/
theorem claim_C2 (h v : Nat) (hh : h < 2 ^ 32) (_hv : v < 2 ^ 32) :
    (mpls_get_label (mpls_set_label h v) = v &&& MPLS_HDR_LABEL_MASK ∧
     mpls_get_tc (mpls_set_tc h v) = v &&& MPLS_HDR_TC_MASK ∧
     mpls_get_eos (mpls_set_eos h v) = v &&& MPLS_HDR_EOS_MASK ∧
     mpls_get_ttl (mpls_set_ttl h v) = v &&& MPLS_HDR_TTL_MASK) ∧
    (mpls_get_tc (mpls_set_label h v) = mpls_get_tc h ∧
     mpls_get_eos (mpls_set_label h v) = mpls_get_eos h ∧
     mpls_get_ttl (mpls_set_label h v) = mpls_get_ttl h) ∧
    (mpls_get_label (mpls_set_tc h v) = mpls_get_label h ∧
     mpls_get_eos (mpls_set_tc h v) = mpls_get_eos h ∧
     mpls_get_ttl (mpls_set_tc h v) = mpls_get_ttl h) ∧
    (mpls_get_label (mpls_set_eos h v) = mpls_get_label h ∧
     mpls_get_tc (mpls_set_eos h v) = mpls_get_tc h ∧
     mpls_get_ttl (mpls_set_eos h v) = mpls_get_ttl h) ∧
    (mpls_get_label (mpls_set_ttl h v) = mpls_get_label h ∧
     mpls_get_tc (mpls_set_ttl h v) = mpls_get_tc h ∧
     mpls_get_eos (mpls_set_ttl h v) = mpls_get_eos h) :=
  ⟨⟨get_set_label h v, get_set_tc h v, get_set_eos h v, get_set_ttl h v⟩,
   ⟨get_tc_set_label h v, get_eos_set_label h v, get_ttl_set_label h v⟩,
   ⟨get_label_set_tc h v hh, get_eos_set_tc h v, get_ttl_set_tc h v⟩,
   ⟨get_label_set_eos h v hh, get_tc_set_eos h v, get_ttl_set_eos h v⟩,
   ⟨get_label_set_ttl h v hh, get_tc_set_ttl h v, get_eos_set_ttl h v⟩⟩

/-- Witness for C2 at the concrete header 0x12345678 and input 0xfedcba98:
the label round-trip masks to 20 bits and setting the ttl leaves the tc
field unchanged. -/
theorem claim_C2_witness :
    mpls_get_label (mpls_set_label 0x12345678 0xfedcba98) = 0xcba98 ∧
    mpls_get_tc (mpls_set_ttl 0x12345678 0xfedcba98) = mpls_get_tc 0x12345678 :=
  ⟨((claim_C2 0x12345678 0xfedcba98 (by decide) (by decide)).1.1).trans
     (by decide),
   (claim_C2 0x12345678 0xfedcba98 (by decide) (by decide)).2.2.2.2.2.1⟩

/-! ## Claim C10: the stamped header always has Traffic Class 0 -/

/-- C10: the per-stream MPLS header stamped onto every encapsulated packet
(initialised to zero, then only label, End-of-Stack and TTL are set in
`fwd_worker_loop`) has Traffic Class 0, for every configured label and ttl. -/
theorem claim_C10 (label ttl : Nat) :
    mpls_get_tc (fwd_stream_hdr label ttl) = 0 := by
  unfold fwd_stream_hdr
  rw [get_tc_set_ttl, get_tc_set_eos, get_tc_set_label]
  decide

/-! ## Claim C3: insertion on a non-exclusively-owned buffer -/

/-- C3 counterexample: a buffer that is *not* a direct single-segment buffer
(two segments) but is direct with reference count 1.  The claim says
`insert_header` must fail with the SharedBuffer error and leave it unmodified;
the code only tests `RTE_MBUF_DIRECT` and the reference count, so insertion
succeeds (returns 0) and modifies the buffer. -/
theorem claim_C3_counterexample :
    mb_twoseg.direct = true ∧ mb_twoseg.refcnt = 1 ∧ mb_twoseg.nb_segs = 2 ∧
    (mpls_header_insert mb_twoseg 7).2 = 0 ∧
    (mpls_header_insert mb_twoseg 7).1.pkt_len = mb_twoseg.pkt_len + 4 := by
  decide

/-- C3 (amended): for every buffer that is not exclusively owned in the sense
the code tests — not a direct buffer, or reference count greater than 1
(the segment count is not consulted) — `mpls_header_insert` fails with the
SharedBuffer error `-EINVAL` and returns the buffer completely unmodified. -/
theorem claim_C3 (m : Mbuf) (hdr : Nat)
    (h : ¬ m.direct = true ∨ m.refcnt > 1) :
    mpls_header_insert m hdr = (m, -EINVAL) := by
  rw [mpls_header_insert, if_pos (by simpa using h)]

/-- Witness for C3 at a concrete shared buffer (reference count 2). -/
theorem claim_C3_witness :
    (¬ mb_shared.direct = true ∨ mb_shared.refcnt > 1) ∧
    mpls_header_insert mb_shared 5 = (mb_shared, -EINVAL) :=
  ⟨by decide, claim_C3 mb_shared 5 (by decide)⟩

/-! ## Claim C4: successful insertion -/

/-- C4: on every buffer satisfying the preconditions (direct with reference
count at most 1, data length at least the minimum frame size, at least 4 bytes
of headroom, data region inside the underlying buffer), `mpls_header_insert`
succeeds, the total packet length grows by exactly 4, the link-layer header
occupies the new front of the data with its ethertype set to the MPLS
ethertype, and the supplied 32-bit header value follows in network byte
order. -/
theorem claim_C4 (m : Mbuf) (hdr : Nat)
    (hdir : m.direct = true) (href : m.refcnt ≤ 1)
    (hlen : RTE_ETHER_MIN_LEN ≤ m.data_len)
    (hroom : MPLS_HDR_LEN ≤ rte_pktmbuf_headroom m)
    (hwf : m.data_off + m.data_len ≤ m.buf.length) :
    (mpls_header_insert m hdr).2 = 0 ∧
    (mpls_header_insert m hdr).1.pkt_len = m.pkt_len + 4 ∧
    (∀ i, i < 12 → byteAt (mpls_header_insert m hdr).1 i = byteAt m i) ∧
    readEtherTypeBE (mpls_header_insert m hdr).1 = RTE_ETHER_TYPE_MPLS ∧
    (byteAt (mpls_header_insert m hdr).1 14 = hdr / 16777216 % 256 ∧
     byteAt (mpls_header_insert m hdr).1 15 = hdr / 65536 % 256 ∧
     byteAt (mpls_header_insert m hdr).1 16 = hdr / 256 % 256 ∧
     byteAt (mpls_header_insert m hdr).1 17 = hdr % 256) := by
  obtain ⟨hret, hsz, hfront, ⟨h12, h13⟩, hshim, _⟩ :=
    mpls_header_insert_spec m hdr hdir href hlen hroom hwf
  refine ⟨hret, hsz.2.2.1, hfront, ?_, hshim⟩
  rw [readEtherTypeBE, h12, h13]
  decide

/-- Witness for C4 at the concrete buffer `mb_ok` with header 0x12345. -/
theorem claim_C4_witness :
    (mpls_header_insert mb_ok 0x12345).2 = 0 ∧
    (mpls_header_insert mb_ok 0x12345).1.pkt_len = 68 ∧
    readEtherTypeBE (mpls_header_insert mb_ok 0x12345).1 =
      RTE_ETHER_TYPE_MPLS :=
  ⟨(claim_C4 mb_ok 0x12345 (by decide) (by decide) (by decide) (by decide)
      (by decide)).1,
   ((claim_C4 mb_ok 0x12345 (by decide) (by decide) (by decide) (by decide)
      (by decide)).2.1).trans (by decide),
   (claim_C4 mb_ok 0x12345 (by decide) (by decide) (by decide) (by decide)
      (by decide)).2.2.2.1⟩

/-! ## Claim C1: encapsulate/decapsulate round trip -/

/-- C1 counterexample: a buffer whose inner payload is recognizable IP
(first payload byte 0x45, top nibble 0x4) and which satisfies all of
`insert_header`'s preconditions, but whose original ethertype 0x1234 does not
match the payload's IP version.  After `insert_header` and the decapsulation
path, the ethertype field is the deduced IPv4 value 0x0800, not the original
0x1234 — the round trip does not restore the original ethertype. -/
theorem claim_C1_counterexample :
    mb_badtype.direct = true ∧ mb_badtype.refcnt = 1 ∧
    RTE_ETHER_MIN_LEN ≤ mb_badtype.data_len ∧
    MPLS_HDR_LEN ≤ rte_pktmbuf_headroom mb_badtype ∧
    byteAt mb_badtype 14 &&& IPVERSION_MASK = IP4_VERSION ∧
    readEtherTypeBE
      (mpls_decap_one (mpls_header_insert mb_badtype 0x12345).1).1 ≠
      readEtherTypeBE mb_badtype := by
  decide

/-- C1 (amended): for every buffer satisfying `insert_header`'s preconditions
whose inner payload is recognizable IP *and consistent with the buffer's
ethertype field* (IPv4 ethertype with a 0x4 top nibble, or IPv6 ethertype with
a 0x6 top nibble), applying `mpls_header_insert` and then the decapsulation
path (`mpls_deduce_ethertype` followed by `mpls_header_strip`) succeeds and
restores the original ethertype field, the original total packet length and
the original data length. -/
theorem claim_C1 (m : Mbuf) (hdr : Nat)
    (hdir : m.direct = true) (href : m.refcnt ≤ 1)
    (hlen : RTE_ETHER_MIN_LEN ≤ m.data_len)
    (hroom : MPLS_HDR_LEN ≤ rte_pktmbuf_headroom m)
    (hwf : m.data_off + m.data_len ≤ m.buf.length)
    (hmatch :
      (byteAt m 14 &&& IPVERSION_MASK = IP4_VERSION ∧
       readEtherTypeBE m = RTE_ETHER_TYPE_IPV4) ∨
      (byteAt m 14 &&& IPVERSION_MASK = IP6_VERSION ∧
       readEtherTypeBE m = RTE_ETHER_TYPE_IPV6)) :
    (mpls_header_insert m hdr).2 = 0 ∧
    (mpls_decap_one (mpls_header_insert m hdr).1).2 = 0 ∧
    readEtherTypeBE (mpls_decap_one (mpls_header_insert m hdr).1).1 =
      readEtherTypeBE m ∧
    (mpls_decap_one (mpls_header_insert m hdr).1).1.pkt_len = m.pkt_len ∧
    (mpls_decap_one (mpls_header_insert m hdr).1).1.data_len = m.data_len := by
  obtain ⟨hret, ⟨hoff, hdlen, hplen, hblen⟩, _, ⟨h12, h13⟩, _, htail⟩ :=
    mpls_header_insert_spec m hdr hdir href hlen hroom hwf
  set m1 := (mpls_header_insert m hdr).1 with hm1
  have hEt1 : readEtherTypeBE m1 = RTE_ETHER_TYPE_MPLS := by
    rw [readEtherTypeBE, h12, h13]
    decide
  have hpay : byteAt m1 18 = byteAt m 14 := htail 18 (by omega)
  have hded : mpls_deduce_ethertype m1 = readEtherTypeBE m := by
    rcases hmatch with ⟨hn, he⟩ | ⟨hn, he⟩ <;>
      simp [mpls_deduce_ethertype, hEt1, RTE_ETHER_HDR_LEN, MPLS_HDR_LEN,
        hpay, hn, he, IP4_VERSION, IP6_VERSION, RTE_ETHER_TYPE_IPV4,
        RTE_ETHER_TYPE_IPV6, RTE_ETHER_TYPE_MPLS]
  have hetne : readEtherTypeBE m ≠ 0 := by
    rcases hmatch with ⟨_, he⟩ | ⟨_, he⟩ <;> rw [he] <;> decide
  have hdecap : mpls_decap_one m1 =
      mpls_header_strip m1 (readEtherTypeBE m) := by
    rw [mpls_decap_one]
    simp only [hded, if_neg hetne]
  have h64 : 64 ≤ m.data_len := hlen
  have hro : 4 ≤ m.data_off := hroom
  obtain ⟨hsc, ⟨_, hdlen2, hplen2, _⟩, _, ⟨g12, g13⟩, _⟩ :=
    mpls_header_strip_spec m1 (readEtherTypeBE m) hEt1
      (by rw [hdlen]; omega)
      (by rw [hdlen, hoff, hblen]; omega)
  have hetlt : readEtherTypeBE m < 65536 := by
    rcases hmatch with ⟨_, he⟩ | ⟨_, he⟩ <;> rw [he] <;> decide
  refine ⟨hret, ?_, ?_, ?_, ?_⟩
  · rw [hdecap]; exact hsc
  · rw [hdecap, readEtherTypeBE, g12, g13]
    omega
  · rw [hdecap, hplen2, hplen]; omega
  · rw [hdecap, hdlen2, hdlen]; omega

/-- Witness for C1 at the concrete IPv4 buffer `mb_ok`. -/
theorem claim_C1_witness :
    (mpls_header_insert mb_ok 0x12345).2 = 0 ∧
    readEtherTypeBE (mpls_decap_one (mpls_header_insert mb_ok 0x12345).1).1 =
      readEtherTypeBE mb_ok ∧
    (mpls_decap_one (mpls_header_insert mb_ok 0x12345).1).1.pkt_len =
      mb_ok.pkt_len :=
  ⟨(claim_C1 mb_ok 0x12345 (by decide) (by decide) (by decide) (by decide)
      (by decide) (Or.inl (by decide))).1,
   (claim_C1 mb_ok 0x12345 (by decide) (by decide) (by decide) (by decide)
      (by decide) (Or.inl (by decide))).2.2.1,
   (claim_C1 mb_ok 0x12345 (by decide) (by decide) (by decide) (by decide)
      (by decide) (Or.inl (by decide))).2.2.2.1⟩

/-! ## Claim C6: per-element failures in the encapsulating burst -/

/-- An `mpls_header_insert` failure leaves the buffer unchanged: every failing
branch returns the argument as is, and the success branch returns 0. -/
theorem mpls_header_insert_unchanged_or_ok (m : Mbuf) (hdr : Nat) :
    (mpls_header_insert m hdr).1 = m ∨ (mpls_header_insert m hdr).2 = 0 := by
  rw [mpls_header_insert]
  split
  · exact Or.inl rfl
  · split
    · exact Or.inl rfl
    · split
      · exact Or.inl rfl
      · exact Or.inr rfl

theorem mpls_header_insert_fail_eq (m : Mbuf) (hdr : Nat)
    (h : (mpls_header_insert m hdr).2 < 0) :
    (mpls_header_insert m hdr).1 = m := by
  rcases mpls_header_insert_unchanged_or_ok m hdr with he | he
  · exact he
  · rw [he] at h; exact absurd h (by decide)

/-- Element-wise description of `mpls_add_hdr_burst_go`. -/
theorem mpls_add_hdr_burst_go_spec (hdr : Nat) :
    ∀ (pkts : List Mbuf) (n : Nat),
    (mpls_add_hdr_burst_go hdr n pkts).1.length = pkts.length ∧
    (∀ i, i < pkts.length →
      (mpls_add_hdr_burst_go hdr n pkts).1.getD i mbNull =
        (mpls_header_insert (pkts.getD i mbNull) hdr).1) ∧
    (∀ i, i < pkts.length →
      (mpls_header_insert (pkts.getD i mbNull) hdr).2 < 0 →
      (n + i) ∈ (mpls_add_hdr_burst_go hdr n pkts).2) := by
  intro pkts
  induction pkts with
  | nil => intro n; refine ⟨rfl, ?_, ?_⟩ <;> intro i hi <;> simp at hi
  | cons p ps ih =>
    intro n
    obtain ⟨ihlen, ihel, ihlog⟩ := ih (n + 1)
    refine ⟨by simpa [mpls_add_hdr_burst_go] using ihlen, ?_, ?_⟩
    · intro i hi
      match i with
      | 0 => simp [mpls_add_hdr_burst_go]
      | j + 1 =>
        simp only [mpls_add_hdr_burst_go, List.getD_cons_succ]
        exact ihel j (by simpa using hi)
    · intro i hi hf
      match i with
      | 0 =>
        simp only [List.getD_cons_zero] at hf
        simp [mpls_add_hdr_burst_go, hf]
      | j + 1 =>
        simp only [List.getD_cons_succ] at hf
        have := ihlog j (by simpa using hi) hf
        simp only [mpls_add_hdr_burst_go]
        have e : n + (j + 1) = n + 1 + j := by omega
        rw [e]
        by_cases hc : (mpls_header_insert p hdr).2 < 0 <;>
          simp [hc, this]

/-- C6 counterexample: a shared buffer on which `insert_header` fails is
*not* dropped from forwarding consideration — phase 1 of the worker loop hands
the whole post-transform burst, the failed (unmodified) element included, to
`rte_eth_tx_burst`. -/
theorem claim_C6_counterexample :
    (mpls_header_insert mb_shared 9).2 < 0 ∧
    fwd_phase1_tx [mb_shared] 9 = [mb_shared] := by
  decide

/-- C6 (amended): in an encapsulating burst every element is processed
independently — a per-element `insert_header` failure is logged, the failing
element is left unmodified, processing of the rest of the batch is never
aborted, and the whole post-transform batch (failed elements included, which
are therefore still transmitted onward) is handed to the transmit stage. -/
theorem claim_C6 (pkts : List Mbuf) (hdr : Nat) :
    (mpls_add_hdr_burst pkts hdr).1.length = pkts.length ∧
    (∀ i, i < pkts.length →
      (mpls_add_hdr_burst pkts hdr).1.getD i mbNull =
        (mpls_header_insert (pkts.getD i mbNull) hdr).1) ∧
    (∀ i, i < pkts.length →
      (mpls_header_insert (pkts.getD i mbNull) hdr).2 < 0 →
      (i ∈ (mpls_add_hdr_burst pkts hdr).2 ∧
       (mpls_add_hdr_burst pkts hdr).1.getD i mbNull = pkts.getD i mbNull)) ∧
    fwd_phase1_tx pkts hdr = (mpls_add_hdr_burst pkts hdr).1 := by
  obtain ⟨hlen, hel, hlog⟩ := mpls_add_hdr_burst_go_spec hdr pkts 0
  refine ⟨hlen, hel, ?_, rfl⟩
  intro i hi hf
  refine ⟨by simpa using hlog i hi hf, ?_⟩
  rw [mpls_add_hdr_burst, hel i hi, mpls_header_insert_fail_eq _ _ hf]

/-- Witness for C6 on a two-element batch: a shared first element fails and is
kept unchanged in the transmitted array; the second element is still
processed. -/
theorem claim_C6_witness :
    (mpls_add_hdr_burst [mb_shared, mb_ok] 9).1.length = 2 ∧
    (mpls_add_hdr_burst [mb_shared, mb_ok] 9).1.getD 0 mbNull = mb_shared ∧
    0 ∈ (mpls_add_hdr_burst [mb_shared, mb_ok] 9).2 ∧
    (mpls_add_hdr_burst [mb_shared, mb_ok] 9).1.getD 1 mbNull =
      (mpls_header_insert mb_ok 9).1 :=
  ⟨(claim_C6 [mb_shared, mb_ok] 9).1,
   ((claim_C6 [mb_shared, mb_ok] 9).2.2.1 0 (by decide) (by decide)).2.trans
     (by decide),
   ((claim_C6 [mb_shared, mb_ok] 9).2.2.1 0 (by decide) (by decide)).1,
   ((claim_C6 [mb_shared, mb_ok] 9).2.1 1 (by decide)).trans (by decide)⟩

/-! ## Claim C8: cooperative shutdown of the worker loop -/

/-- One unfolding step of the loop trace. -/
theorem fwd_loop_trace_succ (reads : Nat → Bool) (f k : Nat) :
    fwd_loop_trace reads (f + 1) k =
      if reads k then ([], true)
      else if reads (k + 1) then ([FwdPhase.encap], true)
      else (FwdPhase.encap :: FwdPhase.decap ::
              (fwd_loop_trace reads f (k + 2)).1,
            (fwd_loop_trace reads f (k + 2)).2) := rfl

/-- A stop flag observed set at the loop condition terminates the loop with no
further phase. -/
theorem fwd_loop_trace_stop (reads : Nat → Bool) (f k : Nat)
    (h : reads k = true) :
    fwd_loop_trace reads (f + 1) k = ([], true) := by
  rw [fwd_loop_trace_succ, if_pos h]

/-- C8: once the stop flag is observed set, the worker loop never starts
another phase — it exits at the loop condition (before the encapsulating
phase) or at the mid-iteration re-check (between the two phases); when the
flag is raised during an iteration, at most the current
encapsulating-plus-decapsulating cycle completes (phases are whole batches, so
the loop never stops mid-batch); and once the flag is set for good the loop
terminates with bounded fuel. -/
theorem claim_C8 :
    (∀ (reads : Nat → Bool) (f k : Nat), reads k = true →
      fwd_loop_trace reads (f + 1) k = ([], true)) ∧
    (∀ (reads : Nat → Bool) (f k : Nat), reads k = false →
      reads (k + 1) = true →
      fwd_loop_trace reads (f + 1) k = ([FwdPhase.encap], true)) ∧
    (∀ (reads : Nat → Bool) (f k : Nat), reads k = false →
      reads (k + 1) = false → reads (k + 2) = true →
      fwd_loop_trace reads (f + 2) k =
        ([FwdPhase.encap, FwdPhase.decap], true)) ∧
    (∀ (reads : Nat → Bool) (K : Nat), (∀ j, K ≤ j → reads j = true) →
      ∀ f k, K ≤ k + f → (fwd_loop_trace reads (f + 1) k).2 = true) := by
  refine ⟨fwd_loop_trace_stop, ?_, ?_, ?_⟩
  · intro reads f k h1 h2
    rw [fwd_loop_trace_succ, if_neg (by simp [h1]), if_pos h2]
  · intro reads f k h1 h2 h3
    show fwd_loop_trace reads (f + 1 + 1) k = _
    rw [fwd_loop_trace_succ, if_neg (by simp [h1]), if_neg (by simp [h2]),
      fwd_loop_trace_stop reads f (k + 2) h3]
  · intro reads K hK f
    induction f with
    | zero =>
      intro k hk
      rw [fwd_loop_trace_stop reads 0 k (hK k (by omega))]
    | succ f ih =>
      intro k hk
      by_cases h1 : reads k = true
      · rw [fwd_loop_trace_stop reads (f + 1) k h1]
      · simp only [Bool.not_eq_true] at h1
        show (fwd_loop_trace reads (f + 1 + 1) k).2 = true
        rw [fwd_loop_trace_succ, if_neg (by simp [h1])]
        by_cases h2 : reads (k + 1) = true
        · rw [if_pos h2]
        · simp only [Bool.not_eq_true] at h2
          rw [if_neg (by simp [h2])]
          exact ih (k + 2) (by omega)

/-- Witness for C8 with the oracle that returns true from the third read on:
no phase after a true read, one phase when the flag arrives mid-iteration, a
full final cycle when it arrives during phase 2, and termination. -/
theorem claim_C8_witness :
    fwd_loop_trace (fun j => decide (3 ≤ j)) 5 3 = ([], true) ∧
    fwd_loop_trace (fun j => decide (3 ≤ j)) 5 2 = ([FwdPhase.encap], true) ∧
    fwd_loop_trace (fun j => decide (3 ≤ j)) 6 1 =
      ([FwdPhase.encap, FwdPhase.decap], true) ∧
    (fwd_loop_trace (fun j => decide (3 ≤ j)) 4 0).2 = true :=
  ⟨claim_C8.1 (fun j => decide (3 ≤ j)) 4 3 (by decide),
   claim_C8.2.1 (fun j => decide (3 ≤ j)) 4 2 (by decide) (by decide),
   claim_C8.2.2.1 (fun j => decide (3 ≤ j)) 4 1 (by decide) (by decide)
     (by decide),
   claim_C8.2.2.2 (fun j => decide (3 ≤ j)) 3
     (fun j hj => by simp [hj]) 3 0 (by omega)⟩

/-! ### Character-class and scanning lemmas for the parser -/

theorem digit_not_blank (c : Char) (h : isdigitChar c = true) :
    isblankChar c = false := by
  simp [isdigitChar] at h
  simp [isblankChar]
  omega

theorem digit_not_space (c : Char) (h : isdigitChar c = true) :
    isspaceChar c = false := by
  simp [isdigitChar] at h
  simp [isspaceChar]
  omega

theorem dropWhile_len (p : Char → Bool) (l : List Char) :
    (l.dropWhile p).length ≤ l.length := by
  induction l with
  | nil => simp
  | cons c r ih =>
    rw [List.dropWhile_cons]
    by_cases h : p c = true
    · simp only [h, if_pos, List.length_cons]
      omega
    · simp [h]

theorem dropWhile_blanks_append (b r : List Char) (hb : Blanks b) :
    (b ++ r).dropWhile isblankChar = r.dropWhile isblankChar := by
  induction b with
  | nil => rfl
  | cons c t ih =>
    have hc : isblankChar c = true := hb c (by simp)
    rw [List.cons_append, List.dropWhile_cons, if_pos hc]
    exact ih (fun x hx => hb x (by simp [hx]))

theorem blanks_dropWhile_nil (b : List Char) (hb : Blanks b) :
    b.dropWhile isblankChar = [] := by
  have := dropWhile_blanks_append b [] hb
  simpa using this

theorem dropWhile_digit_head (c : Char) (r : List Char)
    (h : isdigitChar c = true) :
    (c :: r).dropWhile isblankChar = c :: r := by
  rw [List.dropWhile_cons, if_neg (by simp [digit_not_blank c h])]

theorem startsDigit_blanks (b r : List Char) (hb : Blanks b)
    (hr : startsDigit r = false) : startsDigit (b ++ r) = false := by
  cases b with
  | nil => simpa using hr
  | cons c t =>
    have hc : isblankChar c = true := hb c (by simp)
    have : isdigitChar c = false := by
      simp [isblankChar] at hc
      simp [isdigitChar]
      omega
    simp [startsDigit, this]

theorem readDigits_len : ∀ (l : List Char) (acc : Nat),
    (readDigits l acc).2.length ≤ l.length := by
  intro l
  induction l with
  | nil => intro acc; simp [readDigits]
  | cons c r ih =>
    intro acc
    rw [readDigits]
    by_cases h : isdigitChar c = true
    · simp only [h, if_pos]
      have := ih (acc * 10 + (c.toNat - 48))
      simp only [List.length_cons]
      omega
    · simp [h]

theorem readDigits_append : ∀ (ds : List Char) (acc : Nat) (r : List Char),
    (∀ c ∈ ds, isdigitChar c = true) → startsDigit r = false →
    readDigits (ds ++ r) acc =
      (ds.foldl (fun a c => a * 10 + (c.toNat - 48)) acc, r) := by
  intro ds
  induction ds with
  | nil =>
    intro acc r _ hr
    cases r with
    | nil => rfl
    | cons c t =>
      simp only [startsDigit] at hr
      simp [readDigits, hr]
  | cons d t ih =>
    intro acc r hds hr
    rw [List.cons_append, readDigits, if_pos (hds d (by simp))]
    rw [ih _ r (fun c hc => hds c (by simp [hc])) hr]
    rfl

theorem strtolNum_noconv_val (s : Bool) (l o : List Char)
    (h : (strtolNum s l o).conv = false) : (strtolNum s l o).val = 0 := by
  unfold strtolNum at h ⊢
  by_cases hs : startsDigit l = true
  · exfalso
    rw [if_pos hs] at h
    split at h <;> split at h <;> simp at h
  · rw [if_neg hs]

theorem strtol10_noconv_val (l : List Char)
    (h : (strtol10 l).conv = false) : (strtol10 l).val = 0 := by
  unfold strtol10 at h ⊢
  cases heq : l.dropWhile isspaceChar with
  | nil =>
    simp only [heq] at h ⊢
    exact strtolNum_noconv_val _ _ _ h
  | cons c r =>
    simp only [heq] at h ⊢
    by_cases h45 : c.toNat = 45
    · rw [if_pos h45] at h ⊢; exact strtolNum_noconv_val _ _ _ h
    · rw [if_neg h45] at h ⊢
      by_cases h43 : c.toNat = 43
      · rw [if_pos h43] at h ⊢; exact strtolNum_noconv_val _ _ _ h
      · rw [if_neg h43] at h ⊢; exact strtolNum_noconv_val _ _ _ h

theorem strtolNum_conv_len (s : Bool) (l o : List Char)
    (h : (strtolNum s l o).conv = true) :
    (strtolNum s l o).rest.length < l.length := by
  unfold strtolNum at h ⊢
  by_cases hsd : startsDigit l = true
  · rw [if_pos hsd] at h ⊢
    cases l with
    | nil => simp [startsDigit] at hsd
    | cons c t =>
      have hrd : (readDigits (c :: t) 0).2.length ≤ t.length := by
        rw [readDigits, if_pos (by simpa [startsDigit] using hsd)]
        exact readDigits_len t _
      split <;> split <;> simp only [List.length_cons] <;> omega
  · rw [if_neg hsd] at h
    simp at h

theorem strtol10_conv_len (l : List Char)
    (h : (strtol10 l).conv = true) : (strtol10 l).rest.length < l.length := by
  have hd := dropWhile_len isspaceChar l
  unfold strtol10 at h ⊢
  cases heq : l.dropWhile isspaceChar with
  | nil =>
    simp only [heq] at h ⊢
    have := strtolNum_conv_len false [] l h
    simp at this
  | cons c r =>
    rw [heq] at hd
    simp only [heq] at h ⊢
    simp only [List.length_cons] at hd
    by_cases h45 : c.toNat = 45
    · rw [if_pos h45] at h ⊢
      have := strtolNum_conv_len true r l h
      omega
    · rw [if_neg h45] at h ⊢
      by_cases h43 : c.toNat = 43
      · rw [if_pos h43] at h ⊢
        have := strtolNum_conv_len false r l h
        omega
      · rw [if_neg h43] at h ⊢
        have := strtolNum_conv_len false (c :: r) l h
        simp only [List.length_cons] at this
        omega

theorem strtol10_num (ds r : List Char) (hds : IsNum ds)
    (hr : startsDigit r = false)
    (hmax : numVal ds ≤ 9223372036854775807) :
    strtol10 (ds ++ r) = ⟨(numVal ds : Int), false, r, true⟩ := by
  obtain ⟨hne, hdig⟩ := hds
  obtain ⟨d, t, rfl⟩ : ∃ d t, ds = d :: t := by
    cases ds with
    | nil => exact absurd rfl hne
    | cons d t => exact ⟨d, t, rfl⟩
  have hd : isdigitChar d = true := hdig d (by simp)
  have hds' : (d :: t ++ r).dropWhile isspaceChar = d :: (t ++ r) := by
    rw [List.cons_append, List.dropWhile_cons,
      if_neg (by simp [digit_not_space d hd])]
  simp only [strtol10, hds']
  have h45 : ¬ d.toNat = 45 := by simp [isdigitChar] at hd; omega
  have h43 : ¬ d.toNat = 43 := by simp [isdigitChar] at hd; omega
  rw [if_neg h45, if_neg h43, strtolNum,
    if_pos (by simpa [startsDigit] using hd), if_neg (by decide)]
  rw [show d :: (t ++ r) = (d :: t) ++ r from rfl,
    readDigits_append (d :: t) 0 r hdig hr]
  rw [if_neg (by
    simp only [numVal] at hmax
    push_cast
    omega)]
  rfl

theorem toInt32_coe (n : Nat) (h : n < 2147483648) :
    toInt32 (n : Int) = (n : Int) := by
  unfold toInt32
  have h1 : (n : Int) % 4294967296 = (n : Int) := by omega
  rw [h1, if_pos (by omega)]

theorem toInt32_zero : toInt32 0 = 0 := by decide

/-- The result of `parse_loop` does not depend on the fuel once the fuel
exceeds the input length: each loop iteration consumes at least two input
characters before recursing. -/
theorem parse_loop_fuel_aux :
    ∀ (n f1 f2 : Nat) (l : List Char) (cores : List Nat) (len : Nat)
      (mn : Int), l.length ≤ n → l.length < f1 → l.length < f2 →
    parse_loop f1 l cores len mn = parse_loop f2 l cores len mn := by
  intro n
  induction n with
  | zero =>
    intro f1 f2 l cores len mn hn h1 h2
    obtain ⟨g1, rfl⟩ : ∃ g, f1 = g + 1 := ⟨f1 - 1, by omega⟩
    obtain ⟨g2, rfl⟩ : ∃ g, f2 = g + 1 := ⟨f2 - 1, by omega⟩
    have hl : l = [] := by
      cases l with
      | nil => rfl
      | cons c r => simp at hn
    subst hl
    rfl
  | succ n ih =>
    intro f1 f2 l cores len mn hn h1 h2
    obtain ⟨g1, rfl⟩ : ∃ g, f1 = g + 1 := ⟨f1 - 1, by omega⟩
    obtain ⟨g2, rfl⟩ : ∃ g, f2 = g + 1 := ⟨f2 - 1, by omega⟩
    simp only [parse_loop]
    cases heq : l.dropWhile isblankChar with
    | nil => rfl
    | cons c cs =>
      have hlcs : (c :: cs).length ≤ l.length := by
        rw [← heq]; exact dropWhile_len _ l
      simp only []
      split
      · rfl
      · rename_i hc1
        split
        · rfl
        · rename_i hc2
          have hconv : (strtol10 (c :: cs)).conv = true := by
            by_cases b : (strtol10 (c :: cs)).conv = true
            · exact b
            · exfalso
              apply hc2
              have hb : (strtol10 (c :: cs)).conv = false := by
                simpa using b
              refine ⟨?_, hb⟩
              rw [strtol10_noconv_val _ hb, toInt32_zero]
          have hrest : (strtol10 (c :: cs)).rest.length < (c :: cs).length :=
            strtol10_conv_len _ hconv
          split
          · split <;> rfl
          · rename_i c2 rest heq2
            have hrest2 : rest.length + 2 ≤ l.length := by
              have hdw : (c2 :: rest).length ≤
                  (strtol10 (c :: cs)).rest.length := by
                rw [← heq2]; exact dropWhile_len _ _
              simp only [List.length_cons] at hdw hlcs hrest ⊢
              omega
            split
            · split
              · rfl
              · exact ih g1 g2 rest _ len INT_MAX (by omega) (by omega)
                  (by omega)
            · split
              · exact ih g1 g2 rest _ len _ (by omega) (by omega) (by omega)
              · rfl

set_option maxRecDepth 4000

/-- One `parse_core_list` loop iteration on a blank-padded numeral followed by
`r` (which must not start with a digit or blank): the numeral becomes `val`,
and the branch taken is decided by the head of `r`. -/
theorem parse_loop_item_step (f : Nat) (b1 ds b2 r : List Char)
    (cores : List Nat) (len : Nat) (mn : Int)
    (hb1 : Blanks b1) (hb2 : Blanks b2) (hds : IsNum ds)
    (hval : numVal ds < 2147483647)
    (hr : startsDigit r = false) (hrb : r.dropWhile isblankChar = r) :
    parse_loop (f + 1) (b1 ++ (ds ++ (b2 ++ r))) cores len mn =
      itemCont (numVal ds : Int) f r cores len mn := by
  obtain ⟨d, t, rfl⟩ : ∃ d t, ds = d :: t := by
    cases ds with
    | nil => exact absurd rfl hds.1
    | cons d t => exact ⟨d, t, rfl⟩
  have hd : isdigitChar d = true := hds.2 d (by simp)
  have hsd : startsDigit (b2 ++ r) = false := startsDigit_blanks _ _ hb2 hr
  have hs := strtol10_num (d :: t) (b2 ++ r) hds hsd (by omega)
  simp only [List.cons_append] at hs
  have hti := toInt32_coe (numVal (d :: t)) (by omega)
  simp only [parse_loop]
  rw [dropWhile_blanks_append _ _ hb1]
  simp only [List.cons_append]
  simp only [dropWhile_digit_head d _ hd]
  rw [hs]
  rw [if_neg (by
    rintro (h | h)
    · simp at h
    · have := Int.natCast_nonneg (numVal (d :: t))
      rw [hti] at h
      omega)]
  rw [if_neg (by rintro ⟨h1, h2⟩; simp at h2)]
  rw [dropWhile_blanks_append _ _ hb2, hrb, hti]
  rfl

theorem parse_loop_fuel (f1 f2 : Nat) (l : List Char) (cores : List Nat)
    (len : Nat) (mn : Int) (h1 : l.length < f1) (h2 : l.length < f2) :
    parse_loop f1 l cores len mn = parse_loop f2 l cores len mn :=
  parse_loop_fuel_aux l.length f1 f2 l cores len mn le_rfl h1 h2


/-! Reduction lemmas for `itemCont` at the concrete terminators. -/

theorem itemCont_nil (v : Int) (f : Nat) (cores : List Nat) (len : Nat) :
    itemCont v f [] cores len INT_MAX =
      match insertRangeLoop (v + 1 - v).toNat v cores len with
      | none => (0, [])
      | some cs => (cs.length, cs) := by
  simp only [itemCont, if_true]

theorem itemCont_nil_open (v : Int) (f : Nat) (cores : List Nat) (len : Nat)
    (mn : Int) (hmn : mn ≠ INT_MAX) :
    itemCont v f [] cores len mn =
      match insertRangeLoop (v + 1 - mn).toNat mn cores len with
      | none => (0, [])
      | some cs => (cs.length, cs) := by
  simp only [itemCont]
  rw [if_neg hmn]

theorem itemCont_comma (v : Int) (f : Nat) (rest : List Char)
    (cores : List Nat) (len : Nat) :
    itemCont v f (',' :: rest) cores len INT_MAX =
      match insertRangeLoop (v + 1 - v).toNat v cores len with
      | none => (0, [])
      | some cs => parse_loop f rest cs len INT_MAX := by
  simp only [itemCont, if_true]
  rw [if_pos (by decide : ','.toNat = 44)]

theorem itemCont_comma_open (v : Int) (f : Nat) (rest : List Char)
    (cores : List Nat) (len : Nat) (mn : Int) (hmn : mn ≠ INT_MAX) :
    itemCont v f (',' :: rest) cores len mn =
      match insertRangeLoop (v + 1 - mn).toNat mn cores len with
      | none => (0, [])
      | some cs => parse_loop f rest cs len INT_MAX := by
  simp only [itemCont]
  rw [if_pos (by decide : ','.toNat = 44), if_neg hmn]

theorem itemCont_dash (v : Int) (f : Nat) (rest : List Char)
    (cores : List Nat) (len : Nat) :
    itemCont v f ('-' :: rest) cores len INT_MAX =
      parse_loop f rest cores len v := by
  simp only [itemCont, and_true]
  rw [if_neg (by decide : ¬ '-'.toNat = 44),
    if_pos (by decide : '-'.toNat = 45)]

theorem itemCont_dash_open (v : Int) (f : Nat) (rest : List Char)
    (cores : List Nat) (len : Nat) (mn : Int) (hmn : mn ≠ INT_MAX) :
    itemCont v f ('-' :: rest) cores len mn = (0, []) := by
  simp only [itemCont]
  rw [if_neg (by decide : ¬ '-'.toNat = 44),
    if_neg (fun h => hmn h.2)]

/-- A rendered item followed by a comma: the token's values are inserted and
the loop continues after the comma with a fresh `INT_MAX` state. -/
theorem parse_loop_item_comma (t : CoreTok) (l rest : List Char)
    (cores : List Nat) (len f f2 : Nat)
    (hi : RendersItem t l) (hwf : tokWF t)
    (h1 : (l ++ ',' :: rest).length < f) (h2 : rest.length < f2) :
    parse_loop f (l ++ ',' :: rest) cores len INT_MAX =
      match insertTok t cores len with
      | none => (0, [])
      | some cs => parse_loop f2 rest cs len INT_MAX := by
  obtain ⟨g, rfl⟩ : ∃ g, f = g + 1 := ⟨f - 1, by omega⟩
  simp only [List.length_append, List.length_cons] at h1
  cases hi with
  | single b1 ds b2 hb1 hb2 hds =>
    obtain ⟨hn, hv⟩ := hwf
    have step := parse_loop_item_step g b1 ds b2 (',' :: rest) cores len
      INT_MAX hb1 hb2 hds hv rfl rfl
    rw [show (b1 ++ ds ++ b2) ++ ',' :: rest =
        b1 ++ (ds ++ (b2 ++ ',' :: rest)) by simp, step, itemCont_comma,
      show ((numVal ds : Int) + 1 - (numVal ds : Int)).toNat = 1 by omega]
    simp only [insertTok]
    cases hir : insertRangeLoop 1 ((numVal ds : Int)) cores len with
    | none => rfl
    | some cs =>
      refine parse_loop_fuel g f2 rest cs len INT_MAX ?_ h2
      simp only [List.length_append] at h1
      omega
  | range b1 ds1 b2 b3 ds2 b4 hb1 hb2 hb3 hb4 hds1 hds2 =>
    obtain ⟨hn1, hn2, hv1, hv2⟩ := hwf
    have step1 := parse_loop_item_step g b1 ds1 b2
      ('-' :: (b3 ++ (ds2 ++ (b4 ++ ',' :: rest)))) cores len INT_MAX
      hb1 hb2 hds1 hv1 rfl rfl
    rw [show (b1 ++ ds1 ++ b2 ++ '-' :: (b3 ++ ds2 ++ b4)) ++ ',' :: rest =
        b1 ++ (ds1 ++ (b2 ++
          ('-' :: (b3 ++ (ds2 ++ (b4 ++ ',' :: rest)))))) by simp, step1,
      itemCont_dash]
    simp only [List.length_append, List.length_cons] at h1
    obtain ⟨g2, rfl⟩ : ∃ g2, g = g2 + 1 := ⟨g - 1, by omega⟩
    have step2 := parse_loop_item_step g2 b3 ds2 b4 (',' :: rest) cores len
      ((numVal ds1 : Int)) hb3 hb4 hds2 hv2 rfl rfl
    have hne : ((numVal ds1 : Int)) ≠ INT_MAX := by
      simp only [INT_MAX]; omega
    rw [step2, itemCont_comma_open _ _ _ _ _ _ hne]
    simp only [insertTok]
    cases hir : insertRangeLoop ((numVal ds2 : Int) + 1 - (numVal ds1 : Int)).toNat
        ((numVal ds1 : Int)) cores len with
    | none => rfl
    | some cs =>
      refine parse_loop_fuel g2 f2 rest cs len INT_MAX ?_ h2
      omega

/-- A rendered item at the end of the input: the token's values are inserted
and the loop returns the resulting count and array. -/
theorem parse_loop_item_last (t : CoreTok) (l : List Char)
    (cores : List Nat) (len f : Nat)
    (hi : RendersItem t l) (hwf : tokWF t) (h1 : l.length < f) :
    parse_loop f l cores len INT_MAX =
      match insertTok t cores len with
      | none => (0, [])
      | some cs => (cs.length, cs) := by
  obtain ⟨g, rfl⟩ : ∃ g, f = g + 1 := ⟨f - 1, by omega⟩
  cases hi with
  | single b1 ds b2 hb1 hb2 hds =>
    obtain ⟨hn, hv⟩ := hwf
    have step := parse_loop_item_step g b1 ds b2 [] cores len
      INT_MAX hb1 hb2 hds hv rfl rfl
    rw [show b1 ++ ds ++ b2 = b1 ++ (ds ++ (b2 ++ [])) by simp, step,
      itemCont_nil,
      show ((numVal ds : Int) + 1 - (numVal ds : Int)).toNat = 1 by omega]
    simp only [insertTok]
  | range b1 ds1 b2 b3 ds2 b4 hb1 hb2 hb3 hb4 hds1 hds2 =>
    obtain ⟨hn1, hn2, hv1, hv2⟩ := hwf
    have step1 := parse_loop_item_step g b1 ds1 b2
      ('-' :: (b3 ++ (ds2 ++ (b4 ++ [])))) cores len INT_MAX
      hb1 hb2 hds1 hv1 rfl rfl
    rw [show b1 ++ ds1 ++ b2 ++ '-' :: (b3 ++ ds2 ++ b4) =
        b1 ++ (ds1 ++ (b2 ++ ('-' :: (b3 ++ (ds2 ++ (b4 ++ [])))))) by simp,
      step1, itemCont_dash]
    simp only [List.length_append, List.length_cons] at h1
    obtain ⟨g2, rfl⟩ : ∃ g2, g = g2 + 1 := ⟨g - 1, by omega⟩
    have step2 := parse_loop_item_step g2 b3 ds2 b4 [] cores len
      ((numVal ds1 : Int)) hb3 hb4 hds2 hv2 rfl rfl
    have hne : ((numVal ds1 : Int)) ≠ INT_MAX := by
      simp only [INT_MAX]; omega
    rw [step2, itemCont_nil_open _ _ _ _ _ hne]
    simp only [insertTok]

/-! ### `put_in_order` keeps the array sorted and duplicate-free -/

theorem insert_before_ge_mem (v : Nat) :
    ∀ (l : List Nat), l.Sorted (· < ·) → v ∈ l →
    insert_before_ge v l = none := by
  intro l
  induction l with
  | nil => intro _ h; simp at h
  | cons a t ih =>
    intro hs hm
    rw [List.sorted_cons] at hs
    rw [insert_before_ge]
    rcases List.mem_cons.mp hm with rfl | hm2
    · rw [if_neg (by omega), if_pos rfl]
    · have hav : a < v := hs.1 v hm2
      rw [if_neg (by omega), if_neg (by omega), ih hs.2 hm2]
      rfl

theorem insert_before_ge_notmem (v : Nat) :
    ∀ (l : List Nat), l.Sorted (· < ·) → v ∉ l →
    ∃ l2, insert_before_ge v l = some l2 ∧ l2.Sorted (· < ·) ∧
      l2.length = l.length + 1 ∧ (∀ x, x ∈ l2 ↔ x = v ∨ x ∈ l) := by
  intro l
  induction l with
  | nil =>
    intro _ _
    exact ⟨[v], rfl, by simp, by simp, by simp⟩
  | cons a t ih =>
    intro hs hm
    rw [List.sorted_cons] at hs
    rw [insert_before_ge]
    by_cases hav : a > v
    · rw [if_pos hav]
      refine ⟨v :: a :: t, rfl, ?_, by simp, by intro x; simp⟩
      rw [List.sorted_cons]
      refine ⟨?_, List.sorted_cons.mpr hs⟩
      intro b hb
      rcases List.mem_cons.mp hb with rfl | hb2
      · omega
      · have := hs.1 b hb2
        omega
    · have hne : ¬ a = v := fun e => hm (by simp [e])
      rw [if_neg hav, if_neg hne]
      obtain ⟨l2, he, hsort, hlen, hmem⟩ :=
        ih hs.2 (fun hmt => hm (by simp [hmt]))
      refine ⟨a :: l2, by rw [he]; rfl, ?_, by simp [hlen], ?_⟩
      · rw [List.sorted_cons]
        refine ⟨?_, hsort⟩
        intro b hb
        rcases (hmem b).mp hb with rfl | hb2
        · omega
        · exact hs.1 b hb2
      · intro x
        simp only [List.mem_cons, hmem x]
        tauto

theorem put_in_order_mem (v : Nat) (l : List Nat) (cap : Nat)
    (hs : l.Sorted (· < ·)) (hm : v ∈ l) :
    put_in_order v l cap = some l := by
  rw [put_in_order, insert_before_ge_mem v l hs hm]

theorem put_in_order_new (v : Nat) (l : List Nat) (cap : Nat)
    (hs : l.Sorted (· < ·)) (hm : v ∉ l) (hcap : l.length + 1 ≤ cap) :
    ∃ l2, put_in_order v l cap = some l2 ∧ l2.Sorted (· < ·) ∧
      l2.length = l.length + 1 ∧ (∀ x, x ∈ l2 ↔ x = v ∨ x ∈ l) := by
  obtain ⟨l2, he, hsort, hlen, hmem⟩ := insert_before_ge_notmem v l hs hm
  refine ⟨l2, ?_, hsort, hlen, hmem⟩
  rw [put_in_order, he]
  simp only []
  rw [if_neg (by omega)]

theorem put_in_order_full (v : Nat) (l : List Nat) (cap : Nat)
    (hs : l.Sorted (· < ·)) (hm : v ∉ l) (hcap : cap < l.length + 1) :
    put_in_order v l cap = none := by
  obtain ⟨l2, he, _, hlen, _⟩ := insert_before_ge_notmem v l hs hm
  rw [put_in_order, he]
  simp only []
  rw [if_pos (by omega)]

theorem insertRangeLoop_spec :
    ∀ (k : Nat) (mn : Int) (l : List Nat) (cap : Nat), 0 ≤ mn →
    l.Sorted (· < ·) → l.length ≤ cap →
    (if (l.toFinset ∪ Finset.Ico mn.toNat (mn.toNat + k)).card ≤ cap then
      ∃ l2, insertRangeLoop k mn l cap = some l2 ∧ l2.Sorted (· < ·) ∧
        l2.toFinset = l.toFinset ∪ Finset.Ico mn.toNat (mn.toNat + k) ∧
        l2.length ≤ cap
     else insertRangeLoop k mn l cap = none) := by
  intro k
  induction k with
  | zero =>
    intro mn l cap hmn hs hlen
    have hcard : l.toFinset.card = l.length := List.toFinset_card_of_nodup
      hs.nodup
    rw [show Finset.Ico mn.toNat (mn.toNat + 0) = ∅ by simp,
      Finset.union_empty, if_pos (by omega)]
    exact ⟨l, rfl, hs, rfl, hlen⟩
  | succ k ih =>
    intro mn l cap hmn hs hlen
    have htn : (mn + 1).toNat = mn.toNat + 1 := by omega
    by_cases hm : mn.toNat ∈ l
    · have hstep : insertRangeLoop (k + 1) mn l cap =
          insertRangeLoop k (mn + 1) l cap := by
        simp only [insertRangeLoop, put_in_order_mem mn.toNat l cap hs hm]
      have E : l.toFinset ∪
          Finset.Ico ((mn + 1).toNat) ((mn + 1).toNat + k) =
          l.toFinset ∪ Finset.Ico mn.toNat (mn.toNat + (k + 1)) := by
        ext x
        simp only [Finset.mem_union, Finset.mem_Ico, List.mem_toFinset, htn]
        constructor
        · rintro (h | h)
          · exact Or.inl h
          · exact Or.inr (by omega)
        · rintro (h | h)
          · exact Or.inl h
          · by_cases hx : x = mn.toNat
            · exact Or.inl (hx ▸ hm)
            · exact Or.inr (by omega)
      have IH := ih (mn + 1) l cap (by omega) hs hlen
      rw [E, ← hstep] at IH
      exact IH
    · by_cases hc : l.length + 1 ≤ cap
      · obtain ⟨l2, he, hs2, hlen2, hmem2⟩ :=
          put_in_order_new mn.toNat l cap hs hm hc
        have hstep : insertRangeLoop (k + 1) mn l cap =
            insertRangeLoop k (mn + 1) l2 cap := by
          simp only [insertRangeLoop, he]
        have hset : l2.toFinset = insert mn.toNat l.toFinset := by
          ext x
          simp [hmem2 x]
        have E : l2.toFinset ∪
            Finset.Ico ((mn + 1).toNat) ((mn + 1).toNat + k) =
            l.toFinset ∪ Finset.Ico mn.toNat (mn.toNat + (k + 1)) := by
          rw [hset]
          ext x
          simp only [Finset.mem_union, Finset.mem_Ico, List.mem_toFinset,
            Finset.mem_insert, htn]
          constructor
          · rintro ((h | h) | h)
            · exact Or.inr (by omega)
            · exact Or.inl h
            · exact Or.inr (by omega)
          · rintro (h | h)
            · exact Or.inl (Or.inr h)
            · by_cases hx : x = mn.toNat
              · exact Or.inl (Or.inl hx)
              · exact Or.inr (by omega)
        have IH := ih (mn + 1) l2 cap (by omega) hs2 (by omega)
        rw [E, ← hstep] at IH
        exact IH
      · have hnone : insertRangeLoop (k + 1) mn l cap = none := by
          simp only [insertRangeLoop,
            put_in_order_full mn.toNat l cap hs hm (by omega)]
        rw [if_neg ?_]
        · exact hnone
        · intro hle
          have hsub : insert mn.toNat l.toFinset ⊆
              l.toFinset ∪ Finset.Ico mn.toNat (mn.toNat + (k + 1)) := by
            intro x hx
            rcases Finset.mem_insert.mp hx with rfl | hx2
            · exact Finset.mem_union_right _
                (Finset.mem_Ico.mpr ⟨le_rfl, by omega⟩)
            · exact Finset.mem_union_left _ hx2
          have hcard2 : (insert mn.toNat l.toFinset).card =
              l.length + 1 := by
            rw [Finset.card_insert_of_not_mem (by simpa using hm),
              List.toFinset_card_of_nodup hs.nodup]
          have := Finset.card_le_card hsub
          omega

theorem insertTok_spec (t : CoreTok) (l : List Nat) (cap : Nat)
    (hwf : tokWF t) (hs : l.Sorted (· < ·)) (hlen : l.length ≤ cap) :
    (if (l.toFinset ∪ tokDen t).card ≤ cap then
      ∃ l2, insertTok t l cap = some l2 ∧ l2.Sorted (· < ·) ∧
        l2.toFinset = l.toFinset ∪ tokDen t ∧ l2.length ≤ cap
     else insertTok t l cap = none) := by
  cases t with
  | single ds =>
    have hspec := insertRangeLoop_spec 1 ((numVal ds : Int)) l cap
      (by omega) hs hlen
    have htn : ((numVal ds : Int)).toNat = numVal ds := by omega
    have E : Finset.Ico ((numVal ds : Int)).toNat
        (((numVal ds : Int)).toNat + 1) = tokDen (CoreTok.single ds) := by
      rw [htn]
      ext x
      simp only [Finset.mem_Ico, tokDen, Finset.mem_singleton]
      omega
    rw [E] at hspec
    exact hspec
  | range d1 d2 =>
    have hspec := insertRangeLoop_spec
      ((numVal d2 : Int) + 1 - (numVal d1 : Int)).toNat
      ((numVal d1 : Int)) l cap (by omega) hs hlen
    have E : Finset.Ico ((numVal d1 : Int)).toNat
        (((numVal d1 : Int)).toNat +
          ((numVal d2 : Int) + 1 - (numVal d1 : Int)).toNat) =
        tokDen (CoreTok.range d1 d2) := by
      ext x
      simp only [Finset.mem_Ico, tokDen, Finset.mem_Icc]
      omega
    rw [E] at hspec
    exact hspec

/-- Main loop lemma: on a well-formed rendered core list, `parse_loop` either
returns the sorted union of the starting array with the denoted set, or fails
with `(0, [])` exactly when that union exceeds the capacity. -/
theorem parse_loop_renders :
    ∀ (toks : List CoreTok) (l : List Char), RendersList toks l →
    (∀ t ∈ toks, tokWF t) →
    ∀ (cores : List Nat) (len f : Nat), l.length < f →
    cores.Sorted (· < ·) → cores.length ≤ len →
    (if (cores.toFinset ∪ denotes toks).card ≤ len then
      ∃ res, parse_loop f l cores len INT_MAX = (res.length, res) ∧
        res.Sorted (· < ·) ∧ res.toFinset = cores.toFinset ∪ denotes toks
     else parse_loop f l cores len INT_MAX = (0, [])) := by
  intro toks l h
  induction h with
  | nil b hb =>
    intro hwf cores len f hf hs hlen
    obtain ⟨g, rfl⟩ : ∃ g, f = g + 1 := ⟨f - 1, by omega⟩
    have hret : parse_loop (g + 1) b cores len INT_MAX =
        (cores.length, cores) := by
      simp only [parse_loop, blanks_dropWhile_nil b hb]
    rw [show denotes [] = ∅ from rfl, Finset.union_empty,
      if_pos (by rw [List.toFinset_card_of_nodup hs.nodup]; exact hlen)]
    exact ⟨cores, hret, hs, rfl⟩
  | last t l hi =>
    intro hwf cores len f hf hs hlen
    have hwt : tokWF t := hwf t (by simp)
    have hstep := parse_loop_item_last t l cores len f hi hwt hf
    have hins := insertTok_spec t cores len hwt hs hlen
    rw [show denotes [t] = tokDen t by simp [denotes]]
    by_cases hc : (cores.toFinset ∪ tokDen t).card ≤ len
    · rw [if_pos hc] at hins ⊢
      obtain ⟨l2, he, hs2, hset2, _⟩ := hins
      refine ⟨l2, ?_, hs2, hset2⟩
      rw [hstep, he]
    · rw [if_neg hc] at hins ⊢
      rw [hstep, hins]
  | cons t l ts l2 hi hrest hne2 ih =>
    intro hwf cores len f hf hs hlen
    have hwt : tokWF t := hwf t (by simp)
    have hflen : l2.length < f := by
      simp only [List.length_append, List.length_cons] at hf
      omega
    have hstep := parse_loop_item_comma t l l2 cores len f f hi hwt hf hflen
    have hins := insertTok_spec t cores len hwt hs hlen
    by_cases hc : (cores.toFinset ∪ tokDen t).card ≤ len
    · rw [if_pos hc] at hins
      obtain ⟨cs, he, hs2, hset2, hlen2⟩ := hins
      have IH := ih (fun u hu => hwf u (by simp [hu])) cs len f hflen hs2
        hlen2
      have E : cs.toFinset ∪ denotes ts =
          cores.toFinset ∪ denotes (t :: ts) := by
        rw [hset2, show denotes (t :: ts) = tokDen t ∪ denotes ts from rfl,
          Finset.union_assoc]
      rw [E] at IH
      rw [hstep, he]
      exact IH
    · rw [if_neg hc] at hins
      have hbig : ¬ (cores.toFinset ∪ denotes (t :: ts)).card ≤ len := by
        intro hle
        apply hc
        have hsub : cores.toFinset ∪ tokDen t ⊆
            cores.toFinset ∪ denotes (t :: ts) := by
          rw [show denotes (t :: ts) = tokDen t ∪ denotes ts from rfl]
          intro x hx
          rcases Finset.mem_union.mp hx with hxx | hxx
          · exact Finset.mem_union_left _ hxx
          · exact Finset.mem_union_right _ (Finset.mem_union_left _ hxx)
        exact le_trans (Finset.card_le_card hsub) hle
      rw [if_neg hbig, hstep, hins]

/-- Continuation form of the loop lemma: a rendered nonempty token list
followed by a comma and an arbitrary remainder `s`.  Either a capacity
overflow aborts inside the prefix (or the prefix's denoted set is already too
big), or the loop reaches `s` with the accumulated sorted array. -/
theorem parse_loop_renders_cont :
    ∀ (toks : List CoreTok) (l1 : List Char), RendersList toks l1 →
    (∀ t ∈ toks, tokWF t) → toks ≠ [] →
    ∀ (s : List Char) (cores : List Nat) (len f f2 : Nat),
    (l1 ++ ',' :: s).length < f → s.length < f2 →
    cores.Sorted (· < ·) → cores.length ≤ len →
    (if (cores.toFinset ∪ denotes toks).card ≤ len then
      ∃ cs, parse_loop f (l1 ++ ',' :: s) cores len INT_MAX =
          parse_loop f2 s cs len INT_MAX ∧ cs.Sorted (· < ·) ∧
        cs.toFinset = cores.toFinset ∪ denotes toks ∧ cs.length ≤ len
     else parse_loop f (l1 ++ ',' :: s) cores len INT_MAX = (0, [])) := by
  intro toks l1 h
  induction h with
  | nil b hb =>
    intro _ hne
    exact absurd rfl hne
  | last t l hi =>
    intro hwf _ s cores len f f2 hf1 hf2 hs hlen
    have hwt : tokWF t := hwf t (by simp)
    have hstep := parse_loop_item_comma t l s cores len f f2 hi hwt hf1 hf2
    have hins := insertTok_spec t cores len hwt hs hlen
    rw [show denotes [t] = tokDen t by simp [denotes]]
    by_cases hc : (cores.toFinset ∪ tokDen t).card ≤ len
    · rw [if_pos hc] at hins ⊢
      obtain ⟨cs, he, hs2, hset2, hlen2⟩ := hins
      exact ⟨cs, by rw [hstep, he], hs2, hset2, hlen2⟩
    · rw [if_neg hc] at hins ⊢
      rw [hstep, hins]
  | cons t l ts l2 hi hrest hne2 ih =>
    intro hwf _ s cores len f f2 hf1 hf2 hs hlen
    have hwt : tokWF t := hwf t (by simp)
    have hassoc : (l ++ ',' :: l2) ++ ',' :: s =
        l ++ ',' :: (l2 ++ ',' :: s) := by simp
    rw [hassoc] at hf1 ⊢
    have hstep := parse_loop_item_comma t l (l2 ++ ',' :: s) cores len f
      ((l2 ++ ',' :: s).length + 1) hi hwt hf1 (by omega)
    have hins := insertTok_spec t cores len hwt hs hlen
    by_cases hc : (cores.toFinset ∪ tokDen t).card ≤ len
    · rw [if_pos hc] at hins
      obtain ⟨cs, he, hs2, hset2, hlen2⟩ := hins
      have IH := ih (fun u hu => hwf u (by simp [hu])) hne2 s cs len
        ((l2 ++ ',' :: s).length + 1) f2 (by omega) hf2 hs2 hlen2
      have E : cs.toFinset ∪ denotes ts =
          cores.toFinset ∪ denotes (t :: ts) := by
        rw [hset2, show denotes (t :: ts) = tokDen t ∪ denotes ts from rfl,
          Finset.union_assoc]
      rw [E] at IH
      by_cases hc2 : (cores.toFinset ∪ denotes (t :: ts)).card ≤ len
      · rw [if_pos hc2] at IH ⊢
        obtain ⟨cs2, heq2, hss2, hsets2, hlens2⟩ := IH
        refine ⟨cs2, ?_, hss2, hsets2, hlens2⟩
        rw [hstep, he]
        exact heq2
      · rw [if_neg hc2] at IH ⊢
        rw [hstep, he]
        exact IH
    · rw [if_neg hc] at hins
      have hbig : ¬ (cores.toFinset ∪ denotes (t :: ts)).card ≤ len := by
        intro hle
        apply hc
        have hsub : cores.toFinset ∪ tokDen t ⊆
            cores.toFinset ∪ denotes (t :: ts) := by
          rw [show denotes (t :: ts) = tokDen t ∪ denotes ts from rfl]
          intro x hx
          rcases Finset.mem_union.mp hx with hxx | hxx
          · exact Finset.mem_union_left _ hxx
          · exact Finset.mem_union_right _ (Finset.mem_union_left _ hxx)
        exact le_trans (Finset.card_le_card hsub) hle
      rw [if_neg hbig, hstep, hins]

theorem sorted_eq_of_toFinset_eq (l1 l2 : List Nat)
    (h1 : l1.Sorted (· < ·)) (h2 : l2.Sorted (· < ·))
    (he : l1.toFinset = l2.toFinset) : l1 = l2 :=
  List.eq_of_perm_of_sorted
    (List.perm_of_nodup_nodup_toFinset_eq h1.nodup h2.nodup he)
    (h1.imp (fun h => le_of_lt h)) (h2.imp (fun h => le_of_lt h))

/-- `parse_core_list` on a rendered well-formed core list whose denoted set
fits the capacity: the sorted duplicate-free list of the denoted set. -/
theorem parse_core_list_renders (toks : List CoreTok) (l : List Char)
    (cap : Nat) (h : RendersList toks l) (hwf : ∀ t ∈ toks, tokWF t)
    (hcap : (denotes toks).card ≤ cap) :
    ∃ res, parse_core_list l cap = (res.length, res) ∧
      res.Sorted (· < ·) ∧ res.toFinset = denotes toks := by
  by_cases hc0 : cap = 0
  · subst hc0
    have hd : denotes toks = ∅ := Finset.card_eq_zero.mp (by omega)
    refine ⟨[], ?_, by simp, by simp [hd]⟩
    rw [parse_core_list, if_pos rfl]
    rfl
  · have hmain := parse_loop_renders toks l h hwf [] cap (l.length + 1)
      (by omega) (by simp) (by simp)
    rw [show (([] : List Nat)).toFinset = ∅ from rfl,
      Finset.empty_union, if_pos hcap] at hmain
    obtain ⟨res, he, hsort, hset⟩ := hmain
    refine ⟨res, ?_, hsort, hset⟩
    rw [parse_core_list, if_neg hc0]
    exact he

/-! ## Claim C7: parsing a well-formed core list -/

/-- C7: for every well-formed input string (comma-separated non-negative
numerals and low-high ranges with optional blanks, values below `INT_MAX`)
whose denoted set fits the destination capacity, `parse_core_list` produces
exactly the set of integers denoted by the tokens — every integer in
`[low, high]` for a range — in strictly ascending order with duplicates
removed, together with its count. -/
theorem claim_C7 (toks : List CoreTok) (l : List Char) (cap : Nat)
    (h : RendersList toks l) (hwf : ∀ t ∈ toks, tokWF t)
    (hcap : (denotes toks).card ≤ cap) :
    ∃ res, parse_core_list l cap = (res.length, res) ∧
      res.Sorted (· < ·) ∧ (∀ x, x ∈ res ↔ x ∈ denotes toks) := by
  obtain ⟨res, he, hsort, hset⟩ := parse_core_list_renders toks l cap h hwf
    hcap
  refine ⟨res, he, hsort, ?_⟩
  intro x
  rw [← List.mem_toFinset, hset]

/-- Witness for C7 on the inputs named by the claim: the range string 0-3
(denoting the set {0,1,2,3}) and, concretely, 0-3 parsing to [0,1,2,3] and
3,1,2 parsing to [1,2,3]. -/
theorem claim_C7_witness :
    (∃ res, parse_core_list ['0', '-', '3'] 10 = (res.length, res) ∧
      res.Sorted (· < ·) ∧
      (∀ x, x ∈ res ↔ x ∈ denotes [CoreTok.range ['0'] ['3']])) ∧
    parse_core_list ['0', '-', '3'] 10 = (4, [0, 1, 2, 3]) ∧
    parse_core_list ['3', ',', '1', ',', '2'] 10 = (3, [1, 2, 3]) :=
  ⟨claim_C7 [CoreTok.range ['0'] ['3']] ['0', '-', '3'] 10
    (RendersList.last _ _
      (RendersItem.range [] ['0'] [] [] ['3'] []
        (by decide) (by decide) (by decide) (by decide)
        (by decide) (by decide)))
    (by intro t ht; simp at ht; subst ht; decide)
    (by decide), by decide, by decide⟩

/-! ## Claim C9: reversed ranges denote nothing but are not errors -/

theorem tokDen_rev (t : CoreTok) (h : isRevTok t = true) : tokDen t = ∅ := by
  cases t with
  | single ds => simp [isRevTok] at h
  | range d1 d2 =>
    simp only [isRevTok, decide_eq_true_eq] at h
    simp only [tokDen]
    exact Finset.Icc_eq_empty (by omega)

theorem denotes_all_rev (toks : List CoreTok)
    (hrev : ∀ t ∈ toks, isRevTok t = true) : denotes toks = ∅ := by
  induction toks with
  | nil => rfl
  | cons t ts ih =>
    rw [show denotes (t :: ts) = tokDen t ∪ denotes ts from rfl,
      tokDen_rev t (hrev t (by simp)), Finset.empty_union]
    exact ih (fun u hu => hrev u (by simp [hu]))

theorem denotes_filter_rev (toks : List CoreTok) :
    denotes toks = denotes (toks.filter (fun t => ! isRevTok t)) := by
  induction toks with
  | nil => rfl
  | cons t ts ih =>
    by_cases h : isRevTok t = true
    · rw [show denotes (t :: ts) = tokDen t ∪ denotes ts from rfl,
        tokDen_rev t h, Finset.empty_union, List.filter_cons,
        if_neg (by simp [h])]
      exact ih
    · rw [show denotes (t :: ts) = tokDen t ∪ denotes ts from rfl,
        List.filter_cons, if_pos (by simp [h])]
      rw [show denotes (t :: (ts.filter (fun u => ! isRevTok u))) =
        tokDen t ∪ denotes (ts.filter (fun u => ! isRevTok u)) from rfl, ih]

/-- C9: a reversed range token `low-high` with `low > high` inserts no values
but is not a parse error: the denoted set ignores reversed ranges entirely
(later tokens are still collected), an input consisting only of reversed
ranges parses to count 0 — indistinguishable from a parse failure — and
concretely `5-3,7` yields count 1 with array `[7]`. -/
theorem claim_C9 :
    parse_core_list ['5', '-', '3', ',', '7'] 10 = (1, [7]) ∧
    (∀ toks : List CoreTok,
      denotes toks = denotes (toks.filter (fun t => ! isRevTok t))) ∧
    (∀ (toks : List CoreTok) (l : List Char) (cap : Nat),
      RendersList toks l → (∀ t ∈ toks, tokWF t) →
      (∀ t ∈ toks, isRevTok t = true) →
      parse_core_list l cap = (0, [])) := by
  refine ⟨by decide, denotes_filter_rev, ?_⟩
  intro toks l cap h hwf hrev
  have hd : denotes toks = ∅ := denotes_all_rev toks hrev
  obtain ⟨res, he, hsort, hset⟩ := parse_core_list_renders toks l cap h hwf
    (by rw [hd]; simp)
  have hres : res = [] := by
    rw [hd] at hset
    exact List.toFinset_eq_empty_iff res |>.mp hset
  rw [he, hres]
  rfl

/-- Witness for C9: the universal part applied to the single reversed range
5-3, which parses to zero results. -/
theorem claim_C9_witness :
    parse_core_list ['5', '-', '3'] 10 = (0, []) :=
  claim_C9.2.2 [CoreTok.range ['5'] ['3']] ['5', '-', '3'] 10
    (RendersList.last _ _
      (RendersItem.range [] ['5'] [] [] ['3'] []
        (by decide) (by decide) (by decide) (by decide)
        (by decide) (by decide)))
    (by intro t ht; simp at ht; subst ht; decide)
    (by intro t ht; simp at ht; subst ht; decide)

/-! ## Claim C5: malformed input aborts the whole parse -/

theorem badstart_loop (f : Nat) (s : List Char) (cores : List Nat)
    (len : Nat) (mn : Int) (hb : BadStart s) :
    parse_loop (f + 1) s cores len mn = (0, []) := by
  obtain ⟨hne, hcase⟩ := hb
  simp only [parse_loop]
  cases heq : s.dropWhile isblankChar with
  | nil => exact absurd heq hne
  | cons c cs =>
    rw [heq] at hcase
    simp only []
    by_cases h1 : (strtol10 (c :: cs)).err = true ∨
        toInt32 (strtol10 (c :: cs)).val < 0
    · rw [if_pos h1]
    · have hcv : toInt32 (strtol10 (c :: cs)).val = 0 ∧
          (strtol10 (c :: cs)).conv = false := by
        rcases hcase with hc | hc | hc
        · exact absurd (Or.inl hc) h1
        · exact absurd (Or.inr hc) h1
        · exact ⟨by rw [strtol10_noconv_val _ hc, toInt32_zero], hc⟩
      rw [if_neg h1, if_pos hcv]

theorem badstart_parse (s : List Char) (cap : Nat) (hb : BadStart s) :
    parse_core_list s cap = (0, []) := by
  rw [parse_core_list]
  by_cases hc0 : cap = 0
  · rw [if_pos hc0]
  · rw [if_neg hc0]
    exact badstart_loop s.length s [] cap INT_MAX hb

theorem badstart_comma (b s : List Char) (hb : Blanks b) :
    BadStart (b ++ ',' :: s) := by
  have hd : (b ++ ',' :: s).dropWhile isblankChar = ',' :: s := by
    rw [dropWhile_blanks_append _ _ hb, List.dropWhile_cons,
      if_neg (by decide)]
  refine ⟨by rw [hd]; simp, Or.inr (Or.inr ?_)⟩
  rw [hd]
  rfl

/-- A range opened a second time before being closed aborts the parse. -/
theorem double_range_loop (f : Nat) (b1 ds1 b2 b3 ds2 b4 rest : List Char)
    (cores : List Nat) (len : Nat)
    (hb1 : Blanks b1) (hb2 : Blanks b2) (hb3 : Blanks b3) (hb4 : Blanks b4)
    (hds1 : IsNum ds1) (hds2 : IsNum ds2)
    (hv1 : numVal ds1 < 2147483647) (hv2 : numVal ds2 < 2147483647)
    (hf : (b1 ++ (ds1 ++ (b2 ++
      '-' :: (b3 ++ (ds2 ++ (b4 ++ '-' :: rest)))))).length < f) :
    parse_loop f (b1 ++ (ds1 ++ (b2 ++
      '-' :: (b3 ++ (ds2 ++ (b4 ++ '-' :: rest)))))) cores len INT_MAX =
      (0, []) := by
  obtain ⟨g, rfl⟩ : ∃ g, f = g + 1 := ⟨f - 1, by omega⟩
  have step1 := parse_loop_item_step g b1 ds1 b2
    ('-' :: (b3 ++ (ds2 ++ (b4 ++ '-' :: rest)))) cores len INT_MAX
    hb1 hb2 hds1 hv1 rfl rfl
  rw [step1, itemCont_dash]
  simp only [List.length_append, List.length_cons] at hf
  obtain ⟨g2, rfl⟩ : ∃ g2, g = g2 + 1 := ⟨g - 1, by omega⟩
  have step2 := parse_loop_item_step g2 b3 ds2 b4 ('-' :: rest) cores len
    ((numVal ds1 : Int)) hb3 hb4 hds2 hv2 rfl rfl
  have hne : ((numVal ds1 : Int)) ≠ INT_MAX := by
    simp only [INT_MAX]; omega
  rw [step2, itemCont_dash_open _ _ _ _ _ _ hne]

/-- A trailing number followed by a dangling dash at the end of the input is
silently discarded: the loop returns the values collected so far. -/
theorem dangling_loop (f : Nat) (b1 ds b2 b3 : List Char)
    (cores : List Nat) (len : Nat)
    (hb1 : Blanks b1) (hb2 : Blanks b2) (hb3 : Blanks b3)
    (hds : IsNum ds) (hv : numVal ds < 2147483647)
    (hf : (b1 ++ (ds ++ (b2 ++ '-' :: b3))).length < f) :
    parse_loop f (b1 ++ (ds ++ (b2 ++ '-' :: b3))) cores len INT_MAX =
      (cores.length, cores) := by
  obtain ⟨g, rfl⟩ : ∃ g, f = g + 1 := ⟨f - 1, by omega⟩
  have step := parse_loop_item_step g b1 ds b2 ('-' :: b3) cores len
    INT_MAX hb1 hb2 hds hv rfl rfl
  rw [step, itemCont_dash]
  simp only [List.length_append, List.length_cons] at hf
  obtain ⟨g2, rfl⟩ : ∃ g2, g = g2 + 1 := ⟨g - 1, by omega⟩
  simp only [parse_loop, blanks_dropWhile_nil b3 hb3]

/-- C5 counterexample: the input `1,2-` has a dangling `-` at the end,
preceded by the valid token `1`, yet `parse_core_list` returns one result
(`[1]`), not zero results. -/
theorem claim_C5_counterexample :
    parse_core_list ['1', ',', '2', '-'] 10 = (1, [1]) ∧
    (parse_core_list ['1', ',', '2', '-'] 10).1 ≠ 0 := by
  decide

/-- C5 (amended): a malformed construct strictly inside the input — a token
on which the number scan fails (empty token, negative number, unexpected
character: `BadStart`), or a range opened twice before being closed — aborts
the entire parse with zero results regardless of how many valid tokens
preceded it, and exceeding the destination capacity also yields zero results;
however a dangling `-` at the very end of the input (a trailing number
followed by `-` and blanks) is not an error: the trailing open range is
silently discarded and the parse returns exactly the values collected from
the preceding tokens. -/
theorem claim_C5 :
    (∀ (s : List Char) (cap : Nat), BadStart s →
      parse_core_list s cap = (0, [])) ∧
    (∀ (toks : List CoreTok) (l1 s : List Char) (cap : Nat),
      RendersList toks l1 → (∀ t ∈ toks, tokWF t) → BadStart s →
      parse_core_list (l1 ++ ',' :: s) cap = (0, [])) ∧
    (∀ (toks : List CoreTok) (l1 b1 ds1 b2 b3 ds2 b4 rest : List Char)
      (cap : Nat),
      RendersList toks l1 → (∀ t ∈ toks, tokWF t) →
      Blanks b1 → Blanks b2 → Blanks b3 → Blanks b4 →
      IsNum ds1 → IsNum ds2 →
      numVal ds1 < 2147483647 → numVal ds2 < 2147483647 →
      parse_core_list (l1 ++ ',' :: (b1 ++ (ds1 ++ (b2 ++
        '-' :: (b3 ++ (ds2 ++ (b4 ++ '-' :: rest))))))) cap = (0, [])) ∧
    (∀ (toks : List CoreTok) (l : List Char) (cap : Nat),
      RendersList toks l → (∀ t ∈ toks, tokWF t) →
      cap < (denotes toks).card →
      parse_core_list l cap = (0, [])) ∧
    (∀ (toks : List CoreTok) (l1 b1 ds b2 b3 : List Char) (cap : Nat),
      RendersList toks l1 → (∀ t ∈ toks, tokWF t) →
      Blanks b1 → Blanks b2 → Blanks b3 →
      IsNum ds → numVal ds < 2147483647 →
      parse_core_list (l1 ++ ',' :: (b1 ++ (ds ++ (b2 ++ '-' :: b3)))) cap =
        parse_core_list l1 cap) := by
  have hcont := parse_loop_renders_cont
  refine ⟨badstart_parse, ?_, ?_, ?_, ?_⟩
  · -- valid prefix, then a BadStart suffix
    intro toks l1 s cap h hwf hbs
    by_cases hts : toks = []
    · subst hts
      cases h with
      | nil b hb => exact badstart_parse _ cap (badstart_comma l1 s hb)
    · rw [parse_core_list]
      by_cases hc0 : cap = 0
      · rw [if_pos hc0]
      · rw [if_neg hc0]
        have hc := parse_loop_renders_cont toks l1 h hwf hts s [] cap
          ((l1 ++ ',' :: s).length + 1) (s.length + 1) (by omega) (by omega)
          (by simp) (by simp)
        by_cases hcard : ((([] : List Nat)).toFinset ∪ denotes toks).card ≤
            cap
        · rw [if_pos hcard] at hc
          obtain ⟨cs, he, _, _, _⟩ := hc
          rw [he]
          exact badstart_loop s.length s cs cap INT_MAX hbs
        · rw [if_neg hcard] at hc
          exact hc
  · -- valid prefix, then a doubly-opened range
    intro toks l1 b1 ds1 b2 b3 ds2 b4 rest cap h hwf hb1 hb2 hb3 hb4 hds1
      hds2 hv1 hv2
    by_cases hts : toks = []
    · subst hts
      cases h with
      | nil b hb => exact badstart_parse _ cap (badstart_comma l1 _ hb)
    · rw [parse_core_list]
      by_cases hc0 : cap = 0
      · rw [if_pos hc0]
      · rw [if_neg hc0]
        set s := b1 ++ (ds1 ++ (b2 ++ '-' :: (b3 ++ (ds2 ++ (b4 ++
          '-' :: rest))))) with hsdef
        have hc := parse_loop_renders_cont toks l1 h hwf hts s [] cap
          ((l1 ++ ',' :: s).length + 1) (s.length + 1) (by omega) (by omega)
          (by simp) (by simp)
        by_cases hcard : ((([] : List Nat)).toFinset ∪ denotes toks).card ≤
            cap
        · rw [if_pos hcard] at hc
          obtain ⟨cs, he, _, _, _⟩ := hc
          rw [he]
          exact double_range_loop (s.length + 1) b1 ds1 b2 b3 ds2 b4 rest cs
            cap hb1 hb2 hb3 hb4 hds1 hds2 hv1 hv2 (by rw [hsdef]; omega)
        · rw [if_neg hcard] at hc
          exact hc
  · -- capacity exceeded
    intro toks l cap h hwf hcap
    rw [parse_core_list]
    by_cases hc0 : cap = 0
    · rw [if_pos hc0]
    · rw [if_neg hc0]
      have hmain := parse_loop_renders toks l h hwf [] cap (l.length + 1)
        (by omega) (by simp) (by simp)
      rw [if_neg (by
        rw [show (([] : List Nat)).toFinset = ∅ from rfl,
          Finset.empty_union]
        omega)] at hmain
      exact hmain
  · -- dangling dash at the end of the input
    intro toks l1 b1 ds b2 b3 cap h hwf hb1 hb2 hb3 hds hv
    by_cases hts : toks = []
    · subst hts
      cases h with
      | nil b hb =>
        rw [badstart_parse _ cap (badstart_comma l1 _ hb), parse_core_list]
        by_cases hc0 : cap = 0
        · rw [if_pos hc0]
        · rw [if_neg hc0]
          obtain ⟨g, hg⟩ : ∃ g, l1.length + 1 = g + 1 := ⟨l1.length, rfl⟩
          rw [hg]
          simp only [parse_loop, blanks_dropWhile_nil l1 hb]
          rfl
    · rw [parse_core_list, parse_core_list]
      by_cases hc0 : cap = 0
      · rw [if_pos hc0, if_pos hc0]
      · rw [if_neg hc0, if_neg hc0]
        set s := b1 ++ (ds ++ (b2 ++ '-' :: b3)) with hsdef
        have hc := parse_loop_renders_cont toks l1 h hwf hts s [] cap
          ((l1 ++ ',' :: s).length + 1) (s.length + 1) (by omega) (by omega)
          (by simp) (by simp)
        have hmain := parse_loop_renders toks l1 h hwf [] cap
          (l1.length + 1) (by omega) (by simp) (by simp)
        by_cases hcard : ((([] : List Nat)).toFinset ∪ denotes toks).card ≤
            cap
        · rw [if_pos hcard] at hc hmain
          obtain ⟨cs, he, hcs_sort, hcs_set, _⟩ := hc
          obtain ⟨res, hre, hres_sort, hres_set⟩ := hmain
          rw [he, hre,
            dangling_loop (s.length + 1) b1 ds b2 b3 cs cap hb1 hb2 hb3 hds
              hv (by rw [hsdef]; omega)]
          have : cs = res :=
            sorted_eq_of_toFinset_eq cs res hcs_sort hres_sort
              (by rw [hcs_set, hres_set])
          rw [this]
        · rw [if_neg hcard] at hc hmain
          rw [hc, hmain]

theorem claim_C5_witness :
    parse_core_list [',', '3'] 10 = (0, []) ∧
    parse_core_list ['1', ',', ',', '3'] 10 = (0, []) ∧
    parse_core_list ['1', ',', '2', '-', '3', '-', '5'] 10 = (0, []) ∧
    parse_core_list ['0', '-', '3'] 2 = (0, []) ∧
    parse_core_list ['1', ',', '2', '-'] 10 = parse_core_list ['1'] 10 := by
  refine ⟨?_, ?_, ?_, ?_, ?_⟩
  · exact claim_C5.1 [',', '3'] 10 (by decide)
  · exact claim_C5.2.1 [CoreTok.single ['1']] ['1'] [',', '3'] 10
      (RendersList.last _ _
        (RendersItem.single [] ['1'] [] (by decide) (by decide) (by decide)))
      (by intro t ht; simp at ht; subst ht; decide)
      (by decide)
  · exact claim_C5.2.2.1 [CoreTok.single ['1']] ['1'] [] ['2'] [] [] ['3']
      [] ['5'] 10
      (RendersList.last _ _
        (RendersItem.single [] ['1'] [] (by decide) (by decide) (by decide)))
      (by intro t ht; simp at ht; subst ht; decide)
      (by decide) (by decide) (by decide) (by decide) (by decide) (by decide)
      (by decide) (by decide)
  · exact claim_C5.2.2.2.1 [CoreTok.range ['0'] ['3']] ['0', '-', '3'] 2
      (RendersList.last _ _
        (RendersItem.range [] ['0'] [] [] ['3'] []
          (by decide) (by decide) (by decide) (by decide)
          (by decide) (by decide)))
      (by intro t ht; simp at ht; subst ht; decide)
      (by decide)
  · exact claim_C5.2.2.2.2 [CoreTok.single ['1']] ['1'] [] ['2'] [] [] 10
      (RendersList.last _ _
        (RendersItem.single [] ['1'] [] (by decide) (by decide) (by decide)))
      (by intro t ht; simp at ht; subst ht; decide)
      (by decide) (by decide) (by decide) (by decide) (by decide)
